import Mathlib

set_option maxRecDepth 8000

namespace PdfBot

/-!
Verification of the PDF_Bot document assembly pipeline (core.py, web_app.py).

The Python sources are shallowly embedded: pure string/list manipulation is
translated to Lean functions over `List Char` / `List`; filesystem and network
effects are abstracted into explicit boolean/function-valued environments; the
mutable per-job registry record is modelled as an explicit state type, and one
pipeline run as the list of registry snapshots produced by its sequence of
field writes (each Python dict assignment is one observable snapshot, matching
what a concurrent poller of the registry can see).
-/
/-! ### Character classes and helpers (model of the regex building blocks in core.py) -/
/-- Model of Python `str.lower` restricted to the alphabets that occur in the
patterns of `core.py` (ASCII and Cyrillic). -/
def pyLowerChar (c : Char) : Char :=
  if 'A' ≤ c ∧ c ≤ 'Z' then Char.ofNat (c.toNat + 32)
  else if 'А' ≤ c ∧ c ≤ 'Я' then Char.ofNat (c.toNat + 32)
  else if c = 'Ё' then 'ё'
  else c

def pyLower (l : List Char) : List Char := l.map pyLowerChar

/-- Model of the regex class `\d` (ASCII decimal digits as they occur in filenames). -/
def isDigitChar (c : Char) : Bool := '0' ≤ c && c ≤ '9'

/-- Model of the regex class `\s`. -/
def isSpaceChar (c : Char) : Bool :=
  c = ' ' || c = '\t' || c = '\n' || c = '\x0b' || c = '\x0c' || c = '\r'

/-- Model of the regex class `[-–]` (hyphen or en dash). -/
def isDashChar (c : Char) : Bool := c = '-' || c = '–'

/-- Model of the regex class `\w` over the alphabets occurring here. -/
def isWordChar (c : Char) : Bool :=
  isDigitChar c || ('a' ≤ c && c ≤ 'z') || ('A' ≤ c && c ≤ 'Z') || c = '_' ||
    ('а' ≤ c && c ≤ 'я') || ('А' ≤ c && c ≤ 'Я') || c = 'ё' || c = 'Ё'

/-- Value of a digit run, as Python `int` on a decimal string. -/
def digitsToNat (l : List Char) : Nat := l.foldl (fun a c => a * 10 + (c.toNat - 48)) 0

/-- Model of `\s*` (greedy; the following classes are disjoint from spaces). -/
def skipSpaces (l : List Char) : List Char := l.dropWhile isSpaceChar

/-- Model of `[.,]?` (greedy; the following classes are disjoint from `.`/`,`). -/
def skipPunct : List Char → List Char
  | [] => []
  | c :: rest => if c = '.' ∨ c = ',' then rest else c :: rest

/-- The literal page label of core.py, the Cyrillic string that anchors every
labelled pattern. -/
def strToken : List Char := ['с', 'т', 'р']

/-- The literal title-page marker of core.py. -/
def titulToken : List Char := ['т', 'и', 'т', 'у', 'л']

def containsToken (tok : List Char) : List Char → Bool
  | [] => false
  | c :: rest => tok.isPrefixOf (c :: rest) || containsToken tok rest

/-! ### The three labelled patterns of `extract_page_number`

`page_patterns` in core.py, in priority order:
range pattern, dash-only pattern, bare-number pattern. -/
inductive StrPatKind where
  | range
  | dashOnly
  | bare
deriving DecidableEq, Repr

/-- Parse `(\d+)` greedily; returns the captured value and the rest. -/
def parseNumber (l : List Char) : Option (Nat × List Char) :=
  let ds := l.takeWhile isDigitChar
  if ds.isEmpty then none else some (digitsToNat ds, l.dropWhile isDigitChar)

/-- Match the part of a labelled pattern that follows the literal label:
`\s*[.,]?\s*(\d+)` then the kind-specific suffix
(range: `\s*[-–]\s*\d+`, dashOnly: `\s*[-–]`, bare: nothing). -/
def matchStrPatAt (k : StrPatKind) (l : List Char) : Option Nat :=
  match parseNumber (skipSpaces (skipPunct (skipSpaces l))) with
  | none => none
  | some (n, rest) =>
    match k with
    | .bare => some n
    | .dashOnly =>
      match skipSpaces rest with
      | c :: _ => if isDashChar c then some n else none
      | [] => none
    | .range =>
      match skipSpaces rest with
      | c :: r2 =>
        if isDashChar c then
          if ((skipSpaces r2).takeWhile isDigitChar).isEmpty then none else some n
        else none
      | [] => none

/-- `re.search` of a labelled pattern: leftmost position where the label occurs
and the whole pattern matches there. -/
def searchStrPat (k : StrPatKind) : List Char → Option Nat
  | [] => none
  | c :: rest =>
    if strToken.isPrefixOf (c :: rest) then
      match matchStrPatAt k ((c :: rest).drop 3) with
      | some n => some n
      | none => searchStrPat k rest
    else searchStrPat k rest

/-- The post-match bound check of core.py: the captured number is accepted only
inside `[lo, hi]`; otherwise this pattern yields nothing (the next one is tried). -/
def boundedNum (lo hi : Nat) : Option Nat → Option Nat
  | some n => if lo ≤ n ∧ n ≤ hi then some n else none
  | none => none

/-- Model of `re.search` with the anchored pattern of core.py on the original
filename: `^(\d+)\s*[-–]\s*\d+` (matches at the string start only). -/
def matchLeadingRange (l : List Char) : Option Nat :=
  let ds := l.takeWhile isDigitChar
  if ds.isEmpty then none
  else
    match skipSpaces (l.dropWhile isDigitChar) with
    | c :: r2 =>
      if isDashChar c then
        if ((skipSpaces r2).takeWhile isDigitChar).isEmpty then none else some (digitsToNat ds)
      else none
    | [] => none

/-- The looser pass: leftmost match of the label-then-anything pattern of
core.py; returns the captured group (everything after the label prefix up to
the first newline, nonempty). -/
def searchAfterStr : List Char → Option (List Char)
  | [] => none
  | c :: rest =>
    if strToken.isPrefixOf (c :: rest) then
      let t := skipSpaces (skipPunct (skipSpaces ((c :: rest).drop 3)))
      let t2 := t.takeWhile (fun ch => ch ≠ '\n')
      if t2.isEmpty then searchAfterStr rest else some t2
    else searchAfterStr rest

/-- Model of `re.finditer` with `\b(\d+)\b`: values of all maximal digit runs
whose neighbours are not word characters, in order. `runOk` carries whether the
character before the current run is a non-word character (or the string start);
`run` is the reversed current digit run. -/
def findNums : List Char → Bool → List Char → List Nat
  | [], runOk, run =>
    if run.isEmpty then [] else if runOk then [digitsToNat run.reverse] else []
  | c :: rest, runOk, run =>
    if isDigitChar c then findNums rest runOk (c :: run)
    else
      let tail := findNums rest (!isWordChar c) []
      if run.isEmpty then tail
      else if runOk && !isWordChar c then digitsToNat run.reverse :: tail
      else tail

/-- The looser pass of core.py: first numeric literal after the label whose
value lies in `[2, 500]`. -/
def afterStrNum (l : List Char) : Option Nat :=
  match searchAfterStr l with
  | none => none
  | some t => (findNums t true []).find? (fun n => decide (2 ≤ n ∧ n ≤ 500))

/-! ### `extract_page_number` (core.py lines 36-70) -/
def extract_page_number (filename : String) : Nat :=
  let filename_lower := pyLower filename.data
  match boundedNum 1 1000 (searchStrPat StrPatKind.range filename_lower) with
  | some n => n
  | none =>
    match boundedNum 1 1000 (searchStrPat StrPatKind.dashOnly filename_lower) with
    | some n => n
    | none =>
      match boundedNum 1 1000 (searchStrPat StrPatKind.bare filename_lower) with
      | some n => n
      | none =>
        match boundedNum 1 1000 (matchLeadingRange filename.data) with
        | some n => n
        | none =>
          match boundedNum 1 1000 (searchStrPat StrPatKind.range filename_lower) with
          | some n => n
          | none =>
            match afterStrNum filename_lower with
            | some n => n
            | none => if containsToken titulToken filename_lower then 1 else 0

/-! ### `_logical_filename` (core.py lines 86-89): strip a leading digits-underscore token -/
def logical_filename (name : String) : String :=
  let ds := name.data.takeWhile isDigitChar
  let rest := name.data.dropWhile isDigitChar
  match rest with
  | '_' :: tail =>
    if ds.isEmpty ∨ tail.isEmpty ∨ tail.contains '\n' then name else ⟨tail⟩
  | _ => name

/-! ### `sort_files_by_pages` (core.py lines 92-107) -/
/-- A harvested document: directory part and filename (distinct files may share
a filename when found in different directories). -/
structure PyFile where
  dir : String
  name : String
deriving DecidableEq, Repr, Inhabited

/-- The dedup key of core.py: `(page_num, logical_name)`. -/
def dedupKey (f : PyFile) : Nat × String :=
  (extract_page_number f.name, logical_filename f.name)

/-- The loop of `sort_files_by_pages` building `files_with_pages` while
skipping any file whose dedup key was already seen. -/
def buildPairs : List PyFile → List (Nat × String) → List (Nat × PyFile)
  | [], _ => []
  | f :: fs, seen_key =>
    let key := dedupKey f
    if key ∈ seen_key then buildPairs fs seen_key
    else (key.1, f) :: buildPairs fs (key :: seen_key)

/-- The sort key of core.py: `x[0] if x[0] > 0 else 9999`. -/
def sortKeyVal (n : Nat) : Nat := if n > 0 then n else 9999

/-- Comparison used by the stable Python sort on `files_with_pages`. -/
def pageLe (a b : Nat × PyFile) : Prop := sortKeyVal a.1 ≤ sortKeyVal b.1

instance : DecidableRel pageLe :=
  fun a b => inferInstanceAs (Decidable (sortKeyVal a.1 ≤ sortKeyVal b.1))

instance : IsTotal (Nat × PyFile) pageLe := ⟨fun _ _ => Nat.le_total _ _⟩

instance : IsTrans (Nat × PyFile) pageLe := ⟨fun _ _ _ h₁ h₂ => Nat.le_trans h₁ h₂⟩

/-- `sort_files_by_pages`: dedup by `(page_num, logical_name)` keeping first
occurrences, then a stable sort by the remapped page number, then drop the keys.
Python `list.sort` is stable, as is insertion sort. -/
def sort_files_by_pages (files : List PyFile) : List PyFile :=
  (List.insertionSort pageLe (buildPairs files [])).map Prod.snd

/-- The sorted pair list underlying `sort_files_by_pages`. -/
def sortedPairs (files : List PyFile) : List (Nat × PyFile) :=
  List.insertionSort pageLe (buildPairs files [])

/-! ### `merge_pdfs` (core.py lines 404-422)

Filesystem and pypdf effects are abstracted: each listed path carries whether
it exists on disk at merge time, its page count, and whether reading it
(`PdfReader`, `add_page`) raises; one flag says whether the final
`writer.write` raises. Any exception is caught by the surrounding try/except,
which returns `(False, 0)`. -/
structure PdfSrc where
  onDisk : Bool
  pages : Nat
  readFails : Bool
deriving DecidableEq, Repr

/-- The loop of `merge_pdfs` with the accumulated page total: missing files
are skipped; a read exception aborts the whole call with `(False, 0)`; after
the loop the single write either raises (`(False, 0)`) or commits. -/
def merge_go (writeFails : Bool) : List PdfSrc → Nat → Bool × Nat
  | [], total => if writeFails then (false, 0) else (true, total)
  | s :: rest, total =>
    if !s.onDisk then merge_go writeFails rest total
    else if s.readFails then (false, 0)
    else merge_go writeFails rest (total + s.pages)

/-- `merge_pdfs`: concatenate the listed PDFs in order into one artifact,
returning `(success, total_pages)`. -/
def merge_pdfs (pdf_files : List PdfSrc) (writeFails : Bool) : Bool × Nat :=
  merge_go writeFails pdf_files 0

/-! ### `convert_word_to_pdf` (core.py lines 389-401) and its backend chain

The three backends are effectful (COM automation, Graph HTTP, LibreOffice
subprocess); their per-call outcomes and the environment-variable configuration
are abstracted into booleans. -/
structure ConvEnv where
  platform_win32 : Bool
  graph_client_id : Bool
  graph_client_secret : Bool
  graph_refresh_token : Bool
  graph_tenant_id : Bool
  graph_user_id : Bool
  win_ok : Bool
  graph_ok : Bool
  libre_ok : Bool
deriving DecidableEq, Repr

/-- `_graph_configured` (core.py lines 248-259): client id and secret must both
be set; then either a refresh token (personal flow) or tenant id plus user id
(work flow). -/
def graph_configured (e : ConvEnv) : Bool :=
  if !e.graph_client_id || !e.graph_client_secret then false
  else if e.graph_refresh_token then true
  else e.graph_tenant_id && e.graph_user_id

/-- `convert_word_to_pdf`: on win32 without the explicit LibreOffice override,
exactly the Word COM backend; otherwise Graph when configured, falling back to
LibreOffice on Graph failure or absence. -/
def convert_word_to_pdf (e : ConvEnv) (use_libreoffice : Bool) : Bool :=
  if e.platform_win32 && !use_libreoffice then e.win_ok
  else if graph_configured e then (if e.graph_ok then true else e.libre_ok)
  else e.libre_ok

/-! ### The pipeline (`process_from_file_list`, core.py lines 514-553, and
`_process_folder_to_pdf_impl`, core.py lines 425-459)

Per-document effects are abstracted: whether the input file exists on disk,
whether `convert_word_to_pdf` reports success, whether the per-document PDF
really exists afterwards, its page count, and whether the merge step can read
it. -/
structure PipeEnv where
  file_exists : PyFile → Bool
  conv_ok : PyFile → Bool
  pdf_created : PyFile → Bool
  pdf_pages : PyFile → Nat
  read_fails : PyFile → Bool
  write_fails : Bool

/-- A document counts as converted in `process_from_file_list` when it exists,
`convert_word_to_pdf` returns True and the produced PDF exists. -/
def fileSucceeds (env : PipeEnv) (f : PyFile) : Bool :=
  env.file_exists f && env.conv_ok f && env.pdf_created f

/-- In `_process_folder_to_pdf_impl` there is no existence pre-check (the files
were just harvested from disk). -/
def implSucceeds (env : PipeEnv) (f : PyFile) : Bool :=
  env.conv_ok f && env.pdf_created f

/-- The per-document PDF handed to the merge step (it exists — its existence
was just checked). -/
def pdfOf (env : PipeEnv) (f : PyFile) : PdfSrc :=
  ⟨true, env.pdf_pages f, env.read_fails f⟩

/-- The conversion loop: produced PDFs in order, and the failed filenames in
order. A failed document only contributes its name to the failed list; the
loop continues with the remaining documents. -/
def convertLoop (env : PipeEnv) (ok : PyFile → Bool) : List PyFile → List PdfSrc × List String
  | [] => ([], [])
  | f :: fs =>
    let r := convertLoop env ok fs
    if ok f then (pdfOf env f :: r.1, r.2) else (r.1, f.name :: r.2)

/-- `process_from_file_list`: empty input fails; otherwise convert the listed
files in the given order, fail when no PDF was produced, else merge. -/
def process_from_file_list (env : PipeEnv) (file_paths : List PyFile) :
    Bool × Nat × List String :=
  if file_paths.isEmpty then (false, 0, [])
  else
    let r := convertLoop env (fileSucceeds env) file_paths
    if r.1.isEmpty then (false, 0, r.2)
    else
      let m := merge_pdfs r.1 env.write_fails
      (m.1, m.2, r.2)

/-- `_process_folder_to_pdf_impl` on an already harvested file list: fail when
no Word file was found, otherwise sort/dedup and run the same loop and merge. -/
def process_folder_impl (env : PipeEnv) (word_files : List PyFile) :
    Bool × Nat × List String :=
  if word_files.isEmpty then (false, 0, [])
  else
    let sorted_files := sort_files_by_pages word_files
    let r := convertLoop env (implSucceeds env) sorted_files
    if r.1.isEmpty then (false, 0, r.2)
    else
      let m := merge_pdfs r.1 env.write_fails
      (m.1, m.2, r.2)

/-- One invocation of the progress callback: `(current, total, name)`. -/
structure CbEvent where
  current : Int
  total : Nat
  name : String
deriving DecidableEq, Repr

/-- The callback invocations of one pipeline run, in order: `(0, total, "")`
after discovery, `(i, total, name)` before converting the i-th document
(1-based), and `(-1, total, "merge")` before the merge — the latter only when
at least one PDF was produced. -/
def processEvents (env : PipeEnv) (ok : PyFile → Bool) (files : List PyFile) : List CbEvent :=
  if files.isEmpty then []
  else
    ⟨0, files.length, ""⟩ ::
      (files.enum.map (fun p => ⟨(p.1 : Int) + 1, files.length, p.2.name⟩) ++
        (if (convertLoop env ok files).1.isEmpty then [] else [⟨-1, files.length, "merge"⟩]))

/-- A concrete environment for witnesses: every file exists and converts except
the one named `bad.docx`; every produced PDF has 2 pages; no exceptions. -/
def envW : PipeEnv :=
  ⟨fun _ => true, fun f => f.name ≠ "bad.docx", fun _ => true, fun _ => 2, fun _ => false, false⟩

def filesW : List PyFile := [⟨"", "good.docx"⟩, ⟨"", "bad.docx"⟩]

/-! ### The two-phase confirm step (`convert_preview`, web_app.py lines 690-712,
and the file list built in `_run_job_from_preview`, line 197)

The submitted JSON `order` array is modelled as a list of integers; the
endpoint filters it to the in-range indices (line 708), rejects an empty
original or filtered list, and hands the filtered order to the runner, which
rebuilds the same filter and indexes the previewed path list. -/
def filterOrder (sorted_paths : List PyFile) (order : List Int) : List Int :=
  order.filter (fun x => decide (0 ≤ x ∧ x < (sorted_paths.length : Int)))

/-- The `/convert/{job_id}` endpoint body after the job/stage/user checks:
either an HTTP 400 error, or the order list handed to the background thread. -/
def convert_preview (sorted_paths : List PyFile) (order : List Int) :
    Except String (List Int) :=
  if order.isEmpty then Except.error "Нужен массив order (индексы файлов)"
  else if (filterOrder sorted_paths order).isEmpty then
    Except.error "Выберите хотя бы один файл"
  else Except.ok (filterOrder sorted_paths order)

/-- `file_list` as built by `_run_job_from_preview` (web_app.py line 197): the
order is filtered to in-range indices again and each index is looked up. -/
def runnerFileList (sorted_paths : List PyFile) (order : List Int) : List PyFile :=
  (filterOrder sorted_paths order).map (fun i => sorted_paths.getD i.toNat default)

/-! ### The job registry record and one run of `_run_job_from_preview`
(web_app.py lines 194-245)

The registry entry `jobs[job_id]` is a dict; each field assignment of the
worker is one observable registry snapshot (a poller may read between any two
assignments). A run is modelled as the list of snapshots: the initial preview
record (from `_make_preview_response`, line 626) followed by one snapshot per
field write, in program order. The callback writes (lines 209-220) and the
the pipeline's callback invocations are taken from the pipeline model above.
`finalizeFails` abstracts an exception in the finalisation steps before the
`pdf_path` write (`get_user_storage_dir`/`copy2`/`save_job`, lines 229-235),
which the surrounding try/except turns into the error epilogue. -/
inductive Stage where
  | preview
  | processing
  | found
  | convert
  | merge
  | done
  | error
deriving DecidableEq, Repr

/-- The fields of a registry entry read by `/progress` and `/download`. -/
structure JobState where
  stage : Stage
  total : Nat
  current : Int
  current_file : String
  file_names : List String
  pdf_path : Option String
  total_pages : Nat
  filename : String
  done : Bool
  errorMsg : Option String
deriving DecidableEq, Repr

/-- The record created by `_make_preview_response` (web_app.py line 626). -/
def initJob (out_filename : String) : JobState :=
  { stage := Stage.preview, total := 0, current := 0, current_file := "",
    file_names := [], pdf_path := none, total_pages := 0,
    filename := out_filename, done := false, errorMsg := none }

/-- The stage written by the progress callback for a given `current` value. -/
def cbStage (c : Int) : Stage :=
  if c = 0 then Stage.found else if c = -1 then Stage.merge else Stage.convert

/-- The field writes of one callback invocation `cb(current, total, name)`
(web_app.py lines 209-220), in program order: total, current, current_file,
conditionally the file_names append, then the stage. -/
def cbWrites (c : Int) (t : Nat) (name : String) : List (JobState → JobState) :=
  [fun s => { s with total := t },
   fun s => { s with current := c },
   fun s => { s with current_file := name }] ++
  (if name ≠ "" ∧ name ≠ "merge" then
    [fun s => { s with file_names := s.file_names ++ [name] }] else []) ++
  [fun s => { s with stage := cbStage c }]

def eventWrites (e : CbEvent) : List (JobState → JobState) :=
  cbWrites e.current e.total e.name

/-- All registry writes performed during `process_from_file_list` through the
callback. -/
def processWrites (env : PipeEnv) (ok : PyFile → Bool) (files : List PyFile) :
    List (JobState → JobState) :=
  ((processEvents env ok files).map eventWrites).flatten

def applyAll (s : JobState) (ws : List (JobState → JobState)) : JobState :=
  ws.foldl (fun s w => w s) s

/-- The snapshots a poller can observe while a write sequence runs: the state
before any write and the state after each write. -/
def runStates : JobState → List (JobState → JobState) → List JobState
  | s, [] => [s]
  | s, w :: ws => s :: runStates (w s) ws

/-- The error message of the not-ok branch (web_app.py line 227). -/
def errText (failed : List String) : String :=
  "Не удалось создать PDF." ++
    (if failed.isEmpty then ""
     else " Не конвертированы: " ++ String.intercalate ", " (failed.take 5))

/-- Writes of the empty-file-list rejection branch (web_app.py lines 199-201). -/
def emptyListWrites : List (JobState → JobState) :=
  [fun s => { s with stage := Stage.error },
   fun s => { s with errorMsg := some "Нет файлов для конвертации" },
   fun s => { s with done := true }]

/-- Writes before the pipeline starts (web_app.py lines 204-207). -/
def startWrites (n : Nat) : List (JobState → JobState) :=
  [fun s => { s with stage := Stage.processing },
   fun s => { s with total := n },
   fun s => { s with current := 0 },
   fun s => { s with file_names := [] }]

/-- Writes of the not-ok branch (web_app.py lines 226-228; no done flag). -/
def failWrites (failed : List String) : List (JobState → JobState) :=
  [fun s => { s with stage := Stage.error },
   fun s => { s with errorMsg := some (errText failed) }]

/-- Writes of the except handler (web_app.py lines 242-245). -/
def exnWrites : List (JobState → JobState) :=
  [fun s => { s with stage := Stage.error },
   fun s => { s with errorMsg := some "exception" },
   fun s => { s with done := true }]

/-- Writes of the success epilogue (web_app.py lines 236-240): pdf_path first,
then stage done, total_pages, filename, done flag. -/
def successWrites (dest : String) (pages : Nat) : List (JobState → JobState) :=
  [fun s => { s with pdf_path := some dest },
   fun s => { s with stage := Stage.done },
   fun s => { s with total_pages := pages },
   fun s => { s with filename := dest },
   fun s => { s with done := true }]

/-- The full write sequence of `_run_job_from_preview`. -/
def runFromPreviewWrites (env : PipeEnv) (paths : List PyFile) (order : List Int)
    (finalizeFails : Bool) (dest : String) : List (JobState → JobState) :=
  let file_list := runnerFileList paths order
  if file_list.isEmpty then emptyListWrites
  else
    startWrites file_list.length ++
    processWrites env (fileSucceeds env) file_list ++
    (if (process_from_file_list env file_list).1 = false then
      failWrites (process_from_file_list env file_list).2.2
    else if finalizeFails then exnWrites
    else successWrites dest (process_from_file_list env file_list).2.1)

/-- The registry snapshots observable over one run of `_run_job_from_preview`,
starting from the preview record. -/
def jobTrace (env : PipeEnv) (paths : List PyFile) (order : List Int)
    (finalizeFails : Bool) (dest out_filename : String) : List JobState :=
  runStates (initJob out_filename) (runFromPreviewWrites env paths order finalizeFails dest)

/-- The position of a stage in the chain
preview → processing → found → convert → merge → done|error. -/
def stageRank : Stage → Nat
  | Stage.preview => 0
  | Stage.processing => 1
  | Stage.found => 2
  | Stage.convert => 3
  | Stage.merge => 4
  | Stage.done => 5
  | Stage.error => 5

/-- Snapshot a was taken no later in the stage chain than snapshot b. -/
def stageLe (a b : JobState) : Prop := stageRank a.stage ≤ stageRank b.stage

instance : DecidableRel stageLe :=
  fun a b => inferInstanceAs (Decidable (stageRank a.stage ≤ stageRank b.stage))

instance : IsTrans JobState stageLe := ⟨fun _ _ _ h₁ h₂ => Nat.le_trans h₁ h₂⟩

/-- A reference environment for one fully successful run: the single previewed
file exists, converts, and merges with no exception. -/
def envT : PipeEnv :=
  ⟨fun _ => true, fun _ => true, fun _ => true, fun _ => 2, fun _ => false, false⟩

def pathsT : List PyFile := [⟨"", "a.docx"⟩]

/-- The snapshot of the reference run taken right after the pdf_path write and
before the stage write of the success epilogue. -/
def wState : JobState :=
  (jobTrace envT pathsT [0] false "merged.pdf" "m.pdf").getD 18 (initJob "x")

/-! ### Theorems -/

/-! ### Basic facts about the order resolver -/
theorem boundedNum_some {lo hi n : Nat} {o : Option Nat} (h : boundedNum lo hi o = some n) :
    lo ≤ n ∧ n ≤ hi := by
  cases o with
  | none => simp [boundedNum] at h
  | some m =>
    simp only [boundedNum] at h
    split at h
    · cases h; assumption
    · cases h

theorem afterStrNum_some {l : List Char} {n : Nat} (h : afterStrNum l = some n) :
    2 ≤ n ∧ n ≤ 500 := by
  unfold afterStrNum at h
  cases hs : searchAfterStr l with
  | none => rw [hs] at h; cases h
  | some t =>
    rw [hs] at h
    have h' : (findNums t true []).find? (fun m => decide (2 ≤ m ∧ m ≤ 500)) = some n := h
    have h2 := @List.find?_some Nat (fun m => decide (2 ≤ m ∧ m ≤ 500)) n (findNums t true []) h'
    exact of_decide_eq_true h2

/-- Every value returned by `extract_page_number` is either the unresolved
sentinel 0 or a resolved key in `[1, 1000]`: each return site in core.py is
guarded by a bound check. -/
theorem extract_page_number_bounds (f : String) :
    extract_page_number f = 0 ∨ (1 ≤ extract_page_number f ∧ extract_page_number f ≤ 1000) := by
  simp only [extract_page_number]
  cases h1 : boundedNum 1 1000 (searchStrPat StrPatKind.range (pyLower f.data)) with
  | some n => exact Or.inr (boundedNum_some h1)
  | none =>
    cases h2 : boundedNum 1 1000 (searchStrPat StrPatKind.dashOnly (pyLower f.data)) with
    | some n => exact Or.inr (boundedNum_some h2)
    | none =>
      cases h3 : boundedNum 1 1000 (searchStrPat StrPatKind.bare (pyLower f.data)) with
      | some n => exact Or.inr (boundedNum_some h3)
      | none =>
        cases h4 : boundedNum 1 1000 (matchLeadingRange f.data) with
        | some n => exact Or.inr (boundedNum_some h4)
        | none =>
          cases h6 : afterStrNum (pyLower f.data) with
          | some n =>
            have hb := afterStrNum_some h6
            exact Or.inr (show 1 ≤ n ∧ n ≤ 1000 from by omega)
          | none =>
            by_cases h7 : containsToken titulToken (pyLower f.data) = true
            · simp only [h7, if_true]
              exact Or.inr (show 1 ≤ (1 : Nat) ∧ (1 : Nat) ≤ 1000 from by omega)
            · simp only [h7, if_false]
              exact Or.inl rfl

/-- Each pair built by the dedup loop carries the page number extracted from
its own filename. -/
theorem buildPairs_fst (fs : List PyFile) :
    ∀ seen, ∀ p ∈ buildPairs fs seen, p.1 = extract_page_number p.2.name := by
  induction fs with
  | nil => intro seen p hp; simp [buildPairs] at hp
  | cons f fs ih =>
    intro seen p hp
    simp only [buildPairs] at hp
    by_cases hseen : dedupKey f ∈ seen
    · rw [if_pos hseen] at hp
      exact ih _ p hp
    · rw [if_neg hseen] at hp
      rcases List.mem_cons.mp hp with hp | hp
      · subst hp; rfl
      · exact ih _ p hp

/-- Elements surviving the dedup loop have keys outside `seen`, are first
occurrences of their key in the traversal order, and have pairwise distinct keys. -/
theorem buildPairs_first (fs : List PyFile) :
    ∀ seen, ∀ p ∈ buildPairs fs seen,
      dedupKey p.2 ∉ seen ∧
        fs.find? (fun g => decide (dedupKey g = dedupKey p.2)) = some p.2 := by
  induction fs with
  | nil => intro seen p hp; simp [buildPairs] at hp
  | cons f fs ih =>
    intro seen p hp
    simp only [buildPairs] at hp
    by_cases hseen : dedupKey f ∈ seen
    · rw [if_pos hseen] at hp
      obtain ⟨hnot, hfind⟩ := ih _ p hp
      refine ⟨hnot, ?_⟩
      have hne : ¬ (decide (dedupKey f = dedupKey p.2) = true) := by
        simp only [decide_eq_true_eq]
        intro heq
        exact hnot (heq ▸ hseen)
      exact (@List.find?_cons_of_neg _ (fun g => decide (dedupKey g = dedupKey p.2))
        f fs hne).trans hfind
    · rw [if_neg hseen] at hp
      rcases List.mem_cons.mp hp with hp | hp
      · subst hp
        refine ⟨hseen, ?_⟩
        exact @List.find?_cons_of_pos _ (fun g => decide (dedupKey g = dedupKey f))
          f fs (by simp)
      · obtain ⟨hnot, hfind⟩ := ih _ p hp
        have hne : dedupKey f ≠ dedupKey p.2 := by
          intro heq
          refine hnot ?_
          rw [← heq]
          exact List.mem_cons_self _ _
        have hnot2 : dedupKey p.2 ∉ seen := fun hmem => hnot (List.mem_cons_of_mem _ hmem)
        refine ⟨hnot2, ?_⟩
        exact (@List.find?_cons_of_neg _ (fun g => decide (dedupKey g = dedupKey p.2))
          f fs (by simpa using hne)).trans hfind

/-- The dedup loop output has pairwise distinct dedup keys. -/
theorem buildPairs_pairwise (fs : List PyFile) :
    ∀ seen, List.Pairwise (fun a b : Nat × PyFile => dedupKey a.2 ≠ dedupKey b.2)
      (buildPairs fs seen) := by
  induction fs with
  | nil => intro seen; simp [buildPairs]
  | cons f fs ih =>
    intro seen
    simp only [buildPairs]
    by_cases hseen : dedupKey f ∈ seen
    · rw [if_pos hseen]
      exact ih _
    · rw [if_neg hseen]
      refine List.Pairwise.cons ?_ (ih _)
      intro p hp heq
      obtain ⟨hnot, _⟩ := buildPairs_first fs _ p hp
      refine hnot ?_
      rw [← heq]
      exact List.mem_cons_self _ _

/-- The first file of the traversal with a given dedup key always survives the
dedup loop, provided its key has not been seen yet. -/
theorem buildPairs_keeps_first (fs : List PyFile) :
    ∀ seen (k : Nat × String) (f : PyFile),
      fs.find? (fun g => decide (dedupKey g = k)) = some f → k ∉ seen →
        f ∈ (buildPairs fs seen).map Prod.snd := by
  induction fs with
  | nil => intro seen k f hfind _; simp at hfind
  | cons g fs ih =>
    intro seen k f hfind hk
    by_cases hg : dedupKey g = k
    · rw [@List.find?_cons_of_pos _ (fun x => decide (dedupKey x = k)) g fs
        (by simpa using hg)] at hfind
      cases hfind
      simp only [buildPairs]
      by_cases hseen : dedupKey g ∈ seen
      · exact absurd (hg ▸ hseen) hk
      · rw [if_neg hseen]
        exact List.mem_cons_self _ _
    · rw [@List.find?_cons_of_neg _ (fun x => decide (dedupKey x = k)) g fs
        (by simpa using hg)] at hfind
      simp only [buildPairs]
      by_cases hseen : dedupKey g ∈ seen
      · rw [if_pos hseen]
        exact ih _ k f hfind hk
      · rw [if_neg hseen]
        refine List.mem_cons_of_mem _ (ih _ k f hfind ?_)
        intro hmem
        rcases List.mem_cons.mp hmem with h | h
        · exact hg h.symm
        · exact hk h

/-- In a list whose elements have pairwise distinct dedup keys, at most one
element matches any given key. -/
theorem filter_key_le_one (l : List PyFile) (k : Nat × String)
    (h : List.Pairwise (fun a b : PyFile => dedupKey a ≠ dedupKey b) l) :
    (l.filter (fun f => decide (dedupKey f = k))).length ≤ 1 := by
  induction l with
  | nil => simp
  | cons a l ih =>
    rcases List.pairwise_cons.mp h with ⟨ha, hl⟩
    by_cases hk : dedupKey a = k
    · rw [List.filter_cons_of_pos (by simpa using hk)]
      have : l.filter (fun f => decide (dedupKey f = k)) = [] := by
        rw [List.filter_eq_nil_iff]
        intro b hb
        simp only [decide_eq_true_eq]
        intro hbk
        exact ha b hb (hk ▸ hbk ▸ rfl)
      simp [this]
    · rw [List.filter_cons_of_neg (by simpa using hk)]
      exact ih hl

theorem sort_files_by_pages_eq (files : List PyFile) :
    sort_files_by_pages files = (sortedPairs files).map Prod.snd := rfl

theorem sortedPairs_perm (files : List PyFile) :
    (sortedPairs files).Perm (buildPairs files []) :=
  List.perm_insertionSort pageLe _

theorem sortedPairs_sorted (files : List PyFile) :
    List.Sorted pageLe (sortedPairs files) :=
  List.sorted_insertionSort pageLe _

theorem sortedPairs_fst (files : List PyFile) :
    ∀ p ∈ sortedPairs files, p.1 = extract_page_number p.2.name := fun p hp =>
  buildPairs_fst files [] p ((sortedPairs_perm files).mem_iff.mp hp)

/-! ### Claim C3 -/
/-- C3 fails on the code: the leading digits-underscore token of a filename is
only stripped for the logical name and is never an order-key source, so
`extract_page_number "005_Report.docx"` is the unresolved sentinel 0, not 5;
the title-page marker is the Cyrillic word, so the Latin `"Title.docx"` maps to
0, not 1; and on these three files the resolved order is Section, Report, Title
(the two unresolved files keep input order after the resolved one), not
Title, Section, Report. -/
theorem claim_C3_counterexample :
    extract_page_number ("005_Report.docx") ≠ 5 ∧
    extract_page_number ("Title.docx") ≠ 1 ∧
    sort_files_by_pages
        [⟨"", "005_Report.docx"⟩, ⟨"", "Title.docx"⟩, ⟨"", "003-010_Section.docx"⟩] ≠
      [⟨"", "Title.docx"⟩, ⟨"", "003-010_Section.docx"⟩, ⟨"", "005_Report.docx"⟩] := by
  refine ⟨by decide, by decide, by decide⟩

/-- C3 amended: `extract_page_number` maps `"005_Report.docx"` to the
unresolved sentinel 0 (a leading digits-underscore token is not an order key),
a file actually containing the title-page marker (`"Титул.docx"`) to 1, and
`"003-010_Section.docx"` to 3; `sort_files_by_pages` then orders the three
files Title, Section, Report — the report last because its key is unresolved. -/
theorem claim_C3 :
    extract_page_number ("005_Report.docx") = 0 ∧
    extract_page_number ("Титул.docx") = 1 ∧
    extract_page_number ("003-010_Section.docx") = 3 ∧
    sort_files_by_pages
        [⟨"", "005_Report.docx"⟩, ⟨"", "Титул.docx"⟩, ⟨"", "003-010_Section.docx"⟩] =
      [⟨"", "Титул.docx"⟩, ⟨"", "003-010_Section.docx"⟩, ⟨"", "005_Report.docx"⟩] := by
  refine ⟨by decide, by decide, by decide, by decide⟩

/-! ### Claim C4 -/
/-- C4: in the output of `sort_files_by_pages`, every file whose extracted
order key is the unresolved sentinel 0 appears after every file whose order key
is resolved (at least 1), for every input list. Unresolved keys are remapped to
9999, above the hard 1000 cap of every resolved key. -/
theorem claim_C4 (files : List PyFile) (i j : Nat)
    (hi : i < (sort_files_by_pages files).length)
    (hj : j < (sort_files_by_pages files).length)
    (h0 : extract_page_number ((sort_files_by_pages files)[i]).name = 0)
    (h1 : 1 ≤ extract_page_number ((sort_files_by_pages files)[j]).name) :
    j < i := by
  have hi' : i < (sortedPairs files).length := by
    have h := hi
    rw [sort_files_by_pages_eq, List.length_map] at h
    exact h
  have hj' : j < (sortedPairs files).length := by
    have h := hj
    rw [sort_files_by_pages_eq, List.length_map] at h
    exact h
  have heqi : (sort_files_by_pages files)[i] = ((sortedPairs files).get (Fin.mk i hi')).2 := by
    simp [sort_files_by_pages_eq, List.get_eq_getElem]
  have heqj : (sort_files_by_pages files)[j] = ((sortedPairs files).get (Fin.mk j hj')).2 := by
    simp [sort_files_by_pages_eq, List.get_eq_getElem]
  rw [heqi] at h0
  rw [heqj] at h1
  have hki : ((sortedPairs files).get (Fin.mk i hi')).1 = 0 := by
    rw [sortedPairs_fst files _ (List.get_mem _ _ _), h0]
  have hkj1 : 1 ≤ ((sortedPairs files).get (Fin.mk j hj')).1 := by
    rw [sortedPairs_fst files _ (List.get_mem _ _ _)]
    exact h1
  have hkj2 : ((sortedPairs files).get (Fin.mk j hj')).1 ≤ 1000 := by
    rw [sortedPairs_fst files _ (List.get_mem _ _ _)]
    rcases extract_page_number_bounds (((sortedPairs files).get (Fin.mk j hj')).2).name
      with h | h
    · omega
    · exact h.2
  rcases Nat.lt_trichotomy i j with hij | hij | hij
  · exfalso
    have hrel := (sortedPairs_sorted files).rel_get_of_lt
      (a := Fin.mk i hi') (b := Fin.mk j hj') hij
    unfold pageLe sortKeyVal at hrel
    rw [hki] at hrel
    rw [if_neg (by omega)] at hrel
    by_cases hpos : ((sortedPairs files).get (Fin.mk j hj')).1 > 0
    · rw [if_pos hpos] at hrel
      omega
    · omega
  · exfalso
    have heq2 : ((sortedPairs files).get (Fin.mk i hi')).1 =
        ((sortedPairs files).get (Fin.mk j hj')).1 := by
      subst hij
      rfl
    omega
  · exact hij

theorem claim_C4_witness :
    (2 : Nat) < (sort_files_by_pages
        [⟨"", "a.docx"⟩, ⟨"", "003-010_b.docx"⟩, ⟨"", "стр. 7.docx"⟩]).length ∧
    0 < 2 := by
  constructor
  · decide
  · exact claim_C4 [⟨"", "a.docx"⟩, ⟨"", "003-010_b.docx"⟩, ⟨"", "стр. 7.docx"⟩]
      2 0 (by decide) (by decide) (by decide) (by decide)

/-! ### Claim C5 -/
/-- C5: whenever files share a dedup key `(page_num, logical_name)`, only the
first in traversal order survives `sort_files_by_pages`: the output never holds
two files with one dedup key, any file found first for its key is in the
output, and every output file is the first of its key in the input order. -/
theorem claim_C5 (files : List PyFile) (k : Nat × String) :
    ((sort_files_by_pages files).filter (fun f => decide (dedupKey f = k))).length ≤ 1 ∧
    (∀ f : PyFile, files.find? (fun g => decide (dedupKey g = k)) = some f →
      f ∈ sort_files_by_pages files) ∧
    (∀ g ∈ sort_files_by_pages files, dedupKey g = k →
      files.find? (fun g2 => decide (dedupKey g2 = k)) = some g) := by
  refine ⟨?_, ?_, ?_⟩
  · have hpw : List.Pairwise (fun a b : PyFile => dedupKey a ≠ dedupKey b)
        (sort_files_by_pages files) := by
      rw [sort_files_by_pages_eq, List.pairwise_map]
      exact ((sortedPairs_perm files).pairwise_iff
        (fun h heq => h heq.symm)).mpr (buildPairs_pairwise files [])
    exact filter_key_le_one _ k hpw
  · intro f hfind
    have hmem := buildPairs_keeps_first files [] k f hfind (by simp)
    rw [sort_files_by_pages_eq]
    rcases List.mem_map.mp hmem with ⟨p, hp, hpf⟩
    exact List.mem_map.mpr ⟨p, (sortedPairs_perm files).mem_iff.mpr hp, hpf⟩
  · intro g hg hk
    rw [sort_files_by_pages_eq] at hg
    rcases List.mem_map.mp hg with ⟨p, hp, hpf⟩
    have := (buildPairs_first files [] p ((sortedPairs_perm files).mem_iff.mp hp)).2
    rw [hpf] at this
    rw [← hk]
    exact this

theorem claim_C5_witness :
    (⟨"", "0001_x.docx"⟩ : PyFile) ∈
      sort_files_by_pages [⟨"", "0001_x.docx"⟩, ⟨"", "0002_x.docx"⟩] :=
  (claim_C5 [⟨"", "0001_x.docx"⟩, ⟨"", "0002_x.docx"⟩] (0, "x.docx")).2.1
    ⟨"", "0001_x.docx"⟩ (by decide)

theorem merge_go_ok (l : List PdfSrc)
    (hr : ∀ s ∈ l, s.onDisk = true → s.readFails = false) :
    ∀ total, merge_go false l total =
      (true, total + ((l.filter (fun s => s.onDisk)).map PdfSrc.pages).sum) := by
  induction l with
  | nil => intro total; simp [merge_go]
  | cons s rest ih =>
    intro total
    have hr' : ∀ x ∈ rest, x.onDisk = true → x.readFails = false :=
      fun x hx => hr x (List.mem_cons_of_mem _ hx)
    by_cases hd : s.onDisk = true
    · have hrf : s.readFails = false := hr s (List.mem_cons_self _ _) hd
      simp only [merge_go, hd, hrf]
      rw [List.filter_cons_of_pos (by simp [hd])]
      rw [ih hr' (total + s.pages)]
      simp only [List.map_cons, List.sum_cons]
      rw [Nat.add_assoc]
      simp
    · have hd' : s.onDisk = false := by simpa using hd
      simp only [merge_go, hd']
      rw [List.filter_cons_of_neg (by simp [hd'])]
      exact ih hr' total

theorem merge_go_skip (l : List PdfSrc) (hd : ∀ s ∈ l, s.onDisk = false) :
    ∀ total, merge_go false l total = (true, total) := by
  induction l with
  | nil => intro total; simp [merge_go]
  | cons s rest ih =>
    intro total
    have h := hd s (List.mem_cons_self _ _)
    simp only [merge_go, h]
    exact ih (fun x hx => hd x (List.mem_cons_of_mem _ hx)) total

theorem merge_go_fail_snd (w : Bool) (l : List PdfSrc) :
    ∀ total, (merge_go w l total).1 = false → (merge_go w l total).2 = 0 := by
  induction l with
  | nil =>
    intro total h
    simp only [merge_go] at h ⊢
    cases w with
    | true => rfl
    | false => simp at h
  | cons s rest ih =>
    intro total h
    simp only [merge_go] at h ⊢
    by_cases hd : s.onDisk = true
    · simp only [hd] at h ⊢
      by_cases hrf : s.readFails = true
      · simp [hrf]
      · have hrf' : s.readFails = false := by simpa using hrf
        simp only [hrf'] at h ⊢
        simp only [Bool.not_true, if_false] at h ⊢
        exact ih _ h
    · have hd' : s.onDisk = false := by simpa using hd
      simp only [hd'] at h ⊢
      simp only [Bool.not_false, if_true] at h ⊢
      exact ih _ h

theorem merge_go_fail_cause (w : Bool) (l : List PdfSrc) :
    ∀ total, (merge_go w l total).1 = false →
      w = true ∨ ∃ s ∈ l, s.onDisk = true ∧ s.readFails = true := by
  induction l with
  | nil =>
    intro total h
    simp only [merge_go] at h
    cases w with
    | true => exact Or.inl rfl
    | false => simp at h
  | cons s rest ih =>
    intro total h
    simp only [merge_go] at h
    by_cases hd : s.onDisk = true
    · simp only [hd, Bool.not_true, if_false] at h
      by_cases hrf : s.readFails = true
      · exact Or.inr ⟨s, List.mem_cons_self _ _, hd, hrf⟩
      · have hrf' : s.readFails = false := by simpa using hrf
        simp only [hrf', if_false] at h
        rcases ih _ h with h | ⟨x, hx, hxx⟩
        · exact Or.inl h
        · exact Or.inr ⟨x, List.mem_cons_of_mem _ hx, hxx⟩
    · have hd' : s.onDisk = false := by simpa using hd
      simp only [hd', Bool.not_false, if_true] at h
      rcases ih _ h with h | ⟨x, hx, hxx⟩
      · exact Or.inl h
      · exact Or.inr ⟨x, List.mem_cons_of_mem _ hx, hxx⟩

/-! ### Claim C6 -/
/-- C6: with no read/write exception, `merge_pdfs` succeeds with the total page
count equal to the sum over the listed files that exist on disk; in particular
when every listed path exists the total is the sum of all page counts, and
missing paths are simply skipped. -/
theorem claim_C6 (pdf_files : List PdfSrc) (writeFails : Bool)
    (hw : writeFails = false)
    (hr : ∀ s ∈ pdf_files, s.onDisk = true → s.readFails = false) :
    ((∀ s ∈ pdf_files, s.onDisk = true) →
      merge_pdfs pdf_files writeFails = (true, (pdf_files.map PdfSrc.pages).sum)) ∧
    merge_pdfs pdf_files writeFails =
      (true, ((pdf_files.filter (fun s => s.onDisk)).map PdfSrc.pages).sum) := by
  subst hw
  have h2 : merge_pdfs pdf_files false =
      (true, ((pdf_files.filter (fun s => s.onDisk)).map PdfSrc.pages).sum) := by
    unfold merge_pdfs
    rw [merge_go_ok pdf_files hr 0]
    simp
  refine ⟨?_, h2⟩
  intro hall
  rw [h2, List.filter_eq_self.mpr (by intro a ha; simpa using hall a ha)]

theorem claim_C6_witness :
    merge_pdfs [⟨true, 2, false⟩, ⟨false, 3, false⟩, ⟨true, 4, false⟩] false = (true, 6) := by
  have h := (claim_C6 [⟨true, 2, false⟩, ⟨false, 3, false⟩, ⟨true, 4, false⟩] false
    rfl (by decide)).2
  exact h.trans (by decide)

/-! ### Claim C10 -/
/-- C10: `merge_pdfs` on an empty list, or on a list with no path existing on
disk, succeeds with 0 pages (the empty artifact is still written); a failure
result is always paired with 0 pages, and occurs only when a read or write
exception is raised. -/
theorem claim_C10 (pdf_files : List PdfSrc) (writeFails : Bool) :
    (writeFails = false → merge_pdfs [] writeFails = (true, 0)) ∧
    ((∀ s ∈ pdf_files, s.onDisk = false) → writeFails = false →
      merge_pdfs pdf_files writeFails = (true, 0)) ∧
    ((merge_pdfs pdf_files writeFails).1 = false →
      (merge_pdfs pdf_files writeFails).2 = 0) ∧
    ((merge_pdfs pdf_files writeFails).1 = false →
      writeFails = true ∨ ∃ s ∈ pdf_files, s.onDisk = true ∧ s.readFails = true) := by
  refine ⟨?_, ?_, ?_, ?_⟩
  · intro hw; subst hw; rfl
  · intro hall hw; subst hw; exact merge_go_skip pdf_files hall 0
  · exact merge_go_fail_snd writeFails pdf_files 0
  · exact merge_go_fail_cause writeFails pdf_files 0

theorem claim_C10_witness :
    merge_pdfs [⟨false, 7, false⟩, ⟨false, 1, true⟩] false = (true, 0) :=
  (claim_C10 [⟨false, 7, false⟩, ⟨false, 1, true⟩] false).2.1 (by decide) rfl

/-! ### Claim C7 -/
/-- C7: conversion succeeds iff some backend in the applicable chain succeeds.
On the native-automation platform without the override the chain is exactly the
Word COM backend (no fallback); otherwise the chain is Graph-then-LibreOffice
when Graph credentials are configured, and LibreOffice alone when not. -/
theorem claim_C7 (e : ConvEnv) (use_libreoffice : Bool) :
    ((e.platform_win32 && !use_libreoffice) = true →
      convert_word_to_pdf e use_libreoffice = e.win_ok) ∧
    ((e.platform_win32 && !use_libreoffice) = false → graph_configured e = true →
      convert_word_to_pdf e use_libreoffice = (e.graph_ok || e.libre_ok)) ∧
    ((e.platform_win32 && !use_libreoffice) = false → graph_configured e = false →
      convert_word_to_pdf e use_libreoffice = e.libre_ok) := by
  unfold convert_word_to_pdf
  refine ⟨?_, ?_, ?_⟩
  · intro h; rw [if_pos h]
  · intro h hg
    rw [if_neg (by simp [h]), if_pos hg]
    cases e.graph_ok <;> simp
  · intro h hg
    rw [if_neg (by simp [h]), if_neg (by simp [hg])]

theorem claim_C7_witness :
    convert_word_to_pdf ⟨false, true, true, true, false, false, false, false, true⟩ false
      = true := by
  have h := (claim_C7 ⟨false, true, true, true, false, false, false, false, true⟩ false).2.1
    (by decide) (by decide)
  exact h.trans (by decide)

theorem filterMap_some_eq_map {α β : Type} (f : α → β) (l : List α) :
    l.filterMap (fun a => some (f a)) = l.map f := by
  induction l with
  | nil => rfl
  | cons a l ih => simp [List.filterMap_cons, ih]

theorem convertLoop_failed (env : PipeEnv) (ok : PyFile → Bool) (files : List PyFile) :
    (convertLoop env ok files).2 = (files.filter (fun f => !ok f)).map PyFile.name := by
  induction files with
  | nil => rfl
  | cons f fs ih =>
    simp only [convertLoop]
    by_cases h : ok f = true
    · rw [if_pos h, List.filter_cons_of_neg (by simp [h])]
      exact ih
    · have h' : ok f = false := by simpa using h
      rw [if_neg h, List.filter_cons_of_pos (by simp [h'])]
      simp only [List.map_cons]
      rw [ih]

theorem convertLoop_pdfs (env : PipeEnv) (ok : PyFile → Bool) (files : List PyFile) :
    (convertLoop env ok files).1 = (files.filter ok).map (pdfOf env) := by
  induction files with
  | nil => rfl
  | cons f fs ih =>
    simp only [convertLoop]
    by_cases h : ok f = true
    · rw [if_pos h, List.filter_cons_of_pos (by simp [h])]
      simp only [List.map_cons]
      rw [ih]
    · rw [if_neg h, List.filter_cons_of_neg (by simp [h])]
      exact ih

/-! ### Claim C8 -/
/-- C8: in both pipeline entry points a failed document only contributes its
name to the failed list (the loop continues, every document gets its progress
event, in order); the run fails iff no document converted successfully or the
merge step failed; and the merge event is emitted iff at least one PDF was
produced. -/
theorem claim_C8 (env : PipeEnv) (file_paths word_files : List PyFile) :
    ((process_from_file_list env file_paths).2.2 =
        (file_paths.filter (fun f => !(fileSucceeds env f))).map PyFile.name) ∧
    ((process_from_file_list env file_paths).1 = false ↔
        ((file_paths.filter (fileSucceeds env)) = [] ∨
          (merge_pdfs ((file_paths.filter (fileSucceeds env)).map (pdfOf env))
            env.write_fails).1 = false)) ∧
    ((∃ e ∈ processEvents env (fileSucceeds env) file_paths, e.current = -1) ↔
        (file_paths.filter (fileSucceeds env)) ≠ []) ∧
    (file_paths ≠ [] →
      (processEvents env (fileSucceeds env) file_paths).filterMap
          (fun e => if 1 ≤ e.current then some e.name else none) =
        file_paths.map PyFile.name) ∧
    ((process_folder_impl env word_files).2.2 =
        ((sort_files_by_pages word_files).filter
          (fun f => !(implSucceeds env f))).map PyFile.name) ∧
    ((process_folder_impl env word_files).1 = false ↔
        (((sort_files_by_pages word_files).filter (implSucceeds env)) = [] ∨
          (merge_pdfs (((sort_files_by_pages word_files).filter (implSucceeds env)).map
            (pdfOf env)) env.write_fails).1 = false)) := by
  refine ⟨?_, ?_, ?_, ?_, ?_, ?_⟩
  · by_cases hemp : file_paths.isEmpty = true
    · have he : file_paths = [] := List.isEmpty_iff.mp hemp
      subst he
      rfl
    · simp only [process_from_file_list, if_neg hemp]
      by_cases hp : (convertLoop env (fileSucceeds env) file_paths).1.isEmpty = true
      · rw [if_pos hp]
        exact convertLoop_failed env _ file_paths
      · rw [if_neg hp]
        exact convertLoop_failed env _ file_paths
  · by_cases hemp : file_paths.isEmpty = true
    · have he : file_paths = [] := List.isEmpty_iff.mp hemp
      subst he
      simp [process_from_file_list]
    · simp only [process_from_file_list, if_neg hemp]
      rw [convertLoop_pdfs]
      by_cases hp : ((file_paths.filter (fileSucceeds env)).map (pdfOf env)).isEmpty = true
      · rw [if_pos hp]
        have hnil : file_paths.filter (fileSucceeds env) = [] := by
          have := List.isEmpty_iff.mp hp
          exact List.map_eq_nil_iff.mp this
        simp [hnil]
      · rw [if_neg hp]
        have hne : file_paths.filter (fileSucceeds env) ≠ [] := by
          intro h
          exact hp (by simp [h])
        simp [hne]
  · by_cases hemp : file_paths.isEmpty = true
    · have he : file_paths = [] := List.isEmpty_iff.mp hemp
      subst he
      simp [processEvents]
    · simp only [processEvents, if_neg hemp]
      constructor
      · rintro ⟨e, he, hc⟩
        rcases List.mem_cons.mp he with rfl | he2
        · simp at hc
        · rcases List.mem_append.mp he2 with he3 | he3
          · rcases List.mem_map.mp he3 with ⟨p, _, rfl⟩
            simp only at hc
            omega
          · by_cases hp : (convertLoop env (fileSucceeds env) file_paths).1.isEmpty = true
            · rw [if_pos hp] at he3
              simp at he3
            · intro hnil
              rw [convertLoop_pdfs, hnil] at hp
              exact hp rfl
      · intro hne
        refine ⟨⟨-1, file_paths.length, "merge"⟩, ?_, rfl⟩
        have hp : ¬ ((convertLoop env (fileSucceeds env) file_paths).1.isEmpty = true) := by
          rw [convertLoop_pdfs]
          simp [hne]
        rw [if_neg hp]
        exact List.mem_cons_of_mem _ (List.mem_append_right _ (List.mem_singleton.mpr rfl))
  · intro hne
    have hemp : ¬ (file_paths.isEmpty = true) := by simp [hne]
    simp only [processEvents, if_neg hemp]
    rw [List.filterMap_cons]
    have h0 : (if (1 : Int) ≤ 0 then some "" else none) = none := by decide
    simp only [h0]
    rw [List.filterMap_append, List.filterMap_map]
    have hfun : ((fun e : CbEvent => if 1 ≤ e.current then some e.name else none) ∘
        (fun p : Nat × PyFile => (⟨(p.1 : Int) + 1, file_paths.length, p.2.name⟩ : CbEvent))) =
        fun p : Nat × PyFile => some p.2.name := by
      funext p
      simp only [Function.comp]
      rw [if_pos (by omega)]
    rw [hfun, filterMap_some_eq_map]
    have hmap : (file_paths.enum.map fun p : Nat × PyFile => p.2.name) =
        file_paths.map PyFile.name := by
      have := List.enum_map_snd file_paths
      calc (file_paths.enum.map fun p : Nat × PyFile => p.2.name)
          = (file_paths.enum.map Prod.snd).map PyFile.name := by rw [List.map_map]; rfl
        _ = file_paths.map PyFile.name := by rw [this]
    rw [hmap]
    have hopt : List.filterMap (fun e : CbEvent => if 1 ≤ e.current then some e.name else none)
        (if (convertLoop env (fileSucceeds env) file_paths).1.isEmpty = true then
          ([] : List CbEvent) else [⟨-1, file_paths.length, "merge"⟩]) = [] := by
      by_cases hp : (convertLoop env (fileSucceeds env) file_paths).1.isEmpty = true
      · rw [if_pos hp]; rfl
      · rw [if_neg hp]; rfl
    rw [hopt, List.append_nil]
  · by_cases hemp : word_files.isEmpty = true
    · have he : word_files = [] := List.isEmpty_iff.mp hemp
      subst he
      rfl
    · simp only [process_folder_impl, if_neg hemp]
      by_cases hp : (convertLoop env (implSucceeds env) (sort_files_by_pages word_files)).1.isEmpty = true
      · rw [if_pos hp]
        exact convertLoop_failed env _ _
      · rw [if_neg hp]
        exact convertLoop_failed env _ _
  · by_cases hemp : word_files.isEmpty = true
    · have he : word_files = [] := List.isEmpty_iff.mp hemp
      subst he
      exact ⟨fun _ => Or.inl rfl, fun _ => rfl⟩
    · simp only [process_folder_impl, if_neg hemp]
      rw [convertLoop_pdfs]
      by_cases hp : (((sort_files_by_pages word_files).filter (implSucceeds env)).map
          (pdfOf env)).isEmpty = true
      · rw [if_pos hp]
        have hnil : (sort_files_by_pages word_files).filter (implSucceeds env) = [] := by
          have := List.isEmpty_iff.mp hp
          exact List.map_eq_nil_iff.mp this
        simp [hnil]
      · rw [if_neg hp]
        have hne : (sort_files_by_pages word_files).filter (implSucceeds env) ≠ [] := by
          intro h
          exact hp (by simp [h])
        simp [hne]

theorem claim_C8_witness :
    (processEvents envW (fileSucceeds envW) filesW).filterMap
        (fun e => if 1 ≤ e.current then some e.name else none) =
      filesW.map PyFile.name :=
  (claim_C8 envW filesW []).2.2.2.1 (by decide)

/-! ### Claim C9 -/
/-- C9: the confirm step filters the submitted order to exactly the in-range
indices, preserving order and duplicates; it rejects with an error exactly when
nothing remains (so no conversion thread starts); on success the runner
processes exactly the files at the confirmed indices, in the confirmed order. -/
theorem claim_C9 (sorted_paths : List PyFile) (order : List Int) :
    ((∃ msg, convert_preview sorted_paths order = Except.error msg) ↔
      filterOrder sorted_paths order = []) ∧
    (∀ o, convert_preview sorted_paths order = Except.ok o →
      o = filterOrder sorted_paths order ∧ o ≠ [] ∧
      runnerFileList sorted_paths o =
        o.map (fun i => sorted_paths.getD i.toNat default)) := by
  constructor
  · constructor
    · rintro ⟨msg, hm⟩
      unfold convert_preview at hm
      by_cases h1 : order.isEmpty = true
      · have : order = [] := List.isEmpty_iff.mp h1
        subst this
        rfl
      · rw [if_neg h1] at hm
        by_cases h2 : (filterOrder sorted_paths order).isEmpty = true
        · exact List.isEmpty_iff.mp h2
        · rw [if_neg h2] at hm
          cases hm
    · intro hnil
      unfold convert_preview
      by_cases h1 : order.isEmpty = true
      · rw [if_pos h1]
        exact ⟨_, rfl⟩
      · rw [if_neg h1, if_pos (by simp [hnil])]
        exact ⟨_, rfl⟩
  · intro o ho
    unfold convert_preview at ho
    by_cases h1 : order.isEmpty = true
    · rw [if_pos h1] at ho
      cases ho
    · rw [if_neg h1] at ho
      by_cases h2 : (filterOrder sorted_paths order).isEmpty = true
      · rw [if_pos h2] at ho
        cases ho
      · rw [if_neg h2] at ho
        cases ho
        refine ⟨rfl, by simpa using h2, ?_⟩
        unfold runnerFileList
        have hid : filterOrder sorted_paths (filterOrder sorted_paths order) =
            filterOrder sorted_paths order :=
          List.filter_eq_self.mpr (fun a ha => (List.mem_filter.mp ha).2)
        rw [hid]

theorem claim_C9_witness :
    ([2, 0, 99] : List Int) ≠ [] ∧
    runnerFileList [⟨"", "a.docx"⟩, ⟨"", "b.docx"⟩, ⟨"", "c.docx"⟩] [2, 0, 99] =
      [⟨"", "c.docx"⟩, ⟨"", "a.docx"⟩] := by
  have h := (claim_C9 [⟨"", "a.docx"⟩, ⟨"", "b.docx"⟩, ⟨"", "c.docx"⟩] [2, 0, 99]).2
    [2, 0] (by rfl)
  refine ⟨by decide, ?_⟩
  have h2 := h.2.2
  have h3 : runnerFileList [⟨"", "a.docx"⟩, ⟨"", "b.docx"⟩, ⟨"", "c.docx"⟩] [2, 0, 99] =
      runnerFileList [⟨"", "a.docx"⟩, ⟨"", "b.docx"⟩, ⟨"", "c.docx"⟩] [2, 0] := by decide
  rw [h3, h2]
  decide

/-! ### Generic facts about write sequences and their snapshot lists -/
theorem applyAll_nil (s : JobState) : applyAll s [] = s := rfl

theorem applyAll_cons (s : JobState) (w : JobState → JobState)
    (ws : List (JobState → JobState)) :
    applyAll s (w :: ws) = applyAll (w s) ws := rfl

theorem applyAll_append (s : JobState) (ws₁ ws₂ : List (JobState → JobState)) :
    applyAll s (ws₁ ++ ws₂) = applyAll (applyAll s ws₁) ws₂ := by
  simp [applyAll, List.foldl_append]

theorem runStates_head (s : JobState) (ws : List (JobState → JobState)) :
    (runStates s ws).head? = some s := by
  cases ws <;> rfl

theorem runStates_ne_nil (s : JobState) (ws : List (JobState → JobState)) :
    runStates s ws ≠ [] := by
  cases ws <;> simp [runStates]

theorem self_mem_runStates (s : JobState) (ws : List (JobState → JobState)) :
    s ∈ runStates s ws := by
  cases ws <;> simp [runStates]

theorem applyAll_mem_runStates (ws : List (JobState → JobState)) :
    ∀ s : JobState, applyAll s ws ∈ runStates s ws := by
  induction ws with
  | nil => intro s; simp [runStates, applyAll]
  | cons w ws ih =>
    intro s
    rw [applyAll_cons]
    exact List.mem_cons_of_mem _ (ih (w s))

theorem runStates_getLast? (ws : List (JobState → JobState)) :
    ∀ s : JobState, (runStates s ws).getLast? = some (applyAll s ws) := by
  induction ws with
  | nil => intro s; rfl
  | cons w ws ih =>
    intro s
    have h2 : (runStates (w s) ws).getLast? = some (applyAll (w s) ws) := ih (w s)
    show (s :: runStates (w s) ws).getLast? = some (applyAll s (w :: ws))
    rw [applyAll_cons]
    rcases hcase : runStates (w s) ws with _ | ⟨x, xs⟩
    · exact absurd hcase (runStates_ne_nil _ _)
    · rw [hcase] at h2
      rw [List.getLast?_cons_cons]
      exact h2

theorem chain'_runStates_append (R : JobState → JobState → Prop)
    (ws₁ : List (JobState → JobState)) :
    ∀ (s : JobState) (ws₂ : List (JobState → JobState)),
      List.Chain' R (runStates s (ws₁ ++ ws₂)) ↔
        List.Chain' R (runStates s ws₁) ∧
          List.Chain' R (runStates (applyAll s ws₁) ws₂) := by
  induction ws₁ with
  | nil =>
    intro s ws₂
    rw [List.nil_append, applyAll_nil]
    show _ ↔ List.Chain' R [s] ∧ _
    simp [List.chain'_singleton]
  | cons w ws ih =>
    intro s ws₂
    show List.Chain' R (s :: runStates (w s) (ws ++ ws₂)) ↔ _
    rw [List.chain'_cons', ih (w s) ws₂]
    show _ ↔ List.Chain' R (s :: runStates (w s) ws) ∧ _
    rw [List.chain'_cons']
    rw [runStates_head, runStates_head, applyAll_cons]
    constructor
    · rintro ⟨h1, h2, h3⟩
      exact ⟨⟨h1, h2⟩, h3⟩
    · rintro ⟨⟨h1, h2⟩, h3⟩
      exact ⟨h1, h2, h3⟩

theorem mem_runStates_append (ws₁ : List (JobState → JobState)) :
    ∀ (s : JobState) (ws₂ : List (JobState → JobState)) (x : JobState),
      x ∈ runStates s (ws₁ ++ ws₂) ↔
        x ∈ runStates s ws₁ ∨ x ∈ runStates (applyAll s ws₁) ws₂ := by
  induction ws₁ with
  | nil =>
    intro s ws₂ x
    rw [List.nil_append, applyAll_nil]
    constructor
    · intro h
      exact Or.inr h
    · rintro (h | h)
      · have hx : x = s := by simpa [runStates] using h
        subst hx
        exact self_mem_runStates _ _
      · exact h
  | cons w ws ih =>
    intro s ws₂ x
    show x ∈ s :: runStates (w s) (ws ++ ws₂) ↔ _
    rw [List.mem_cons, ih (w s) ws₂ x, applyAll_cons]
    show _ ↔ x ∈ s :: runStates (w s) ws ∨ _
    rw [List.mem_cons]
    tauto

theorem runStates_invariant (P : JobState → Prop) (ws : List (JobState → JobState)) :
    ∀ s : JobState, P s → (∀ w ∈ ws, ∀ s', P s' → P (w s')) →
      ∀ x ∈ runStates s ws, P x := by
  induction ws with
  | nil =>
    intro s hs _ x hx
    have hx2 : x = s := by simpa [runStates] using hx
    subst hx2
    exact hs
  | cons w ws ih =>
    intro s hs hw x hx
    rcases List.mem_cons.mp hx with rfl | hx2
    · exact hs
    · exact ih (w s) (hw w (List.mem_cons_self _ _) s hs)
        (fun w' hw' => hw w' (List.mem_cons_of_mem _ hw')) x hx2

/-! ### Facts about the callback writes -/
theorem cbStage_pos (c : Int) (h : 1 ≤ c) : cbStage c = Stage.convert := by
  unfold cbStage
  rw [if_neg (by omega), if_neg (by omega)]

theorem applyAll_cbWrites_stage (s : JobState) (c : Int) (t : Nat) (n : String) :
    (applyAll s (cbWrites c t n)).stage = cbStage c := by
  by_cases hn : n ≠ "" ∧ n ≠ "merge"
  · unfold cbWrites
    rw [if_pos hn]
    rfl
  · unfold cbWrites
    rw [if_neg hn]
    rfl

theorem cbWrites_stage_cases (c : Int) (t : Nat) (n : String) :
    ∀ w ∈ cbWrites c t n, ∀ s : JobState,
      (w s).stage = s.stage ∨ (w s).stage = cbStage c := by
  intro w hw s
  unfold cbWrites at hw
  by_cases hn : n ≠ "" ∧ n ≠ "merge"
  · rw [if_pos hn] at hw
    simp only [List.cons_append, List.nil_append, List.mem_cons, List.not_mem_nil,
      or_false] at hw
    rcases hw with rfl | rfl | rfl | rfl | rfl
    · exact Or.inl rfl
    · exact Or.inl rfl
    · exact Or.inl rfl
    · exact Or.inl rfl
    · exact Or.inr rfl
  · rw [if_neg hn] at hw
    simp only [List.cons_append, List.nil_append, List.mem_cons, List.not_mem_nil,
      or_false] at hw
    rcases hw with rfl | rfl | rfl | rfl
    · exact Or.inl rfl
    · exact Or.inl rfl
    · exact Or.inl rfl
    · exact Or.inr rfl

theorem cbWrites_pdf_preserve (c : Int) (t : Nat) (n : String) :
    ∀ w ∈ cbWrites c t n, ∀ s : JobState, (w s).pdf_path = s.pdf_path := by
  intro w hw s
  unfold cbWrites at hw
  by_cases hn : n ≠ "" ∧ n ≠ "merge"
  · rw [if_pos hn] at hw
    simp only [List.cons_append, List.nil_append, List.mem_cons, List.not_mem_nil,
      or_false] at hw
    rcases hw with rfl | rfl | rfl | rfl | rfl <;> rfl
  · rw [if_neg hn] at hw
    simp only [List.cons_append, List.nil_append, List.mem_cons, List.not_mem_nil,
      or_false] at hw
    rcases hw with rfl | rfl | rfl | rfl <;> rfl

theorem chain'_cbWrites (s : JobState) (c : Int) (t : Nat) (n : String)
    (h : stageRank s.stage ≤ stageRank (cbStage c)) :
    List.Chain' stageLe (runStates s (cbWrites c t n)) := by
  by_cases hn : n ≠ "" ∧ n ≠ "merge"
  · unfold cbWrites
    rw [if_pos hn]
    refine List.Chain'.cons ?_ (List.Chain'.cons ?_ (List.Chain'.cons ?_
      (List.Chain'.cons ?_ (List.chain'_pair.mpr ?_))))
    · exact Nat.le_refl _
    · exact Nat.le_refl _
    · exact Nat.le_refl _
    · exact Nat.le_refl _
    · exact h
  · unfold cbWrites
    rw [if_neg hn]
    refine List.Chain'.cons ?_ (List.Chain'.cons ?_ (List.Chain'.cons ?_
      (List.chain'_pair.mpr ?_)))
    · exact Nat.le_refl _
    · exact Nat.le_refl _
    · exact Nat.le_refl _
    · exact h

theorem eventWrites_eq (e : CbEvent) :
    eventWrites e = cbWrites e.current e.total e.name := rfl

/-! ### Facts about the write sequence of a whole pipeline run -/
theorem chain'_eventList (evs : List CbEvent) (hge : ∀ e ∈ evs, 1 ≤ e.current) :
    ∀ s : JobState, stageRank s.stage ≤ 3 →
      List.Chain' stageLe (runStates s ((evs.map eventWrites).flatten)) ∧
      stageRank (applyAll s ((evs.map eventWrites).flatten)).stage ≤ 3 := by
  induction evs with
  | nil =>
    intro s h
    constructor
    · exact List.chain'_singleton s
    · simpa [applyAll] using h
  | cons e evs ih =>
    intro s h
    have hge' : ∀ x ∈ evs, 1 ≤ x.current := fun x hx => hge x (List.mem_cons_of_mem _ hx)
    have hc : cbStage e.current = Stage.convert :=
      cbStage_pos e.current (hge e (List.mem_cons_self _ _))
    simp only [List.map_cons, List.flatten_cons]
    rw [chain'_runStates_append, applyAll_append]
    have hstage : (applyAll s (eventWrites e)).stage = Stage.convert := by
      rw [eventWrites_eq, applyAll_cbWrites_stage, hc]
    have h2 : stageRank (applyAll s (eventWrites e)).stage ≤ 3 := by
      rw [hstage]
      decide
    obtain ⟨h3, h4⟩ := ih hge' _ h2
    refine ⟨⟨?_, h3⟩, h4⟩
    rw [eventWrites_eq]
    exact chain'_cbWrites s e.current e.total e.name (by rw [hc]; exact h)

theorem processEvents_mid_ge (files : List PyFile) :
    ∀ e ∈ files.enum.map (fun p : Nat × PyFile =>
      (⟨(p.1 : Int) + 1, files.length, p.2.name⟩ : CbEvent)), 1 ≤ e.current := by
  intro e he
  rcases List.mem_map.mp he with ⟨p, _, rfl⟩
  show (1 : Int) ≤ (p.1 : Int) + 1
  omega

theorem chain'_eventsWrites (e0 : CbEvent) (mid opt : List CbEvent)
    (h0 : e0.current = 0) (hmid : ∀ e ∈ mid, 1 ≤ e.current)
    (hopt : opt = [] ∨ ∃ t n, opt = [⟨-1, t, n⟩])
    (s : JobState) (hs : stageRank s.stage ≤ 2) :
    List.Chain' stageLe (runStates s (((e0 :: (mid ++ opt)).map eventWrites).flatten)) ∧
    stageRank (applyAll s (((e0 :: (mid ++ opt)).map eventWrites).flatten)).stage ≤ 4 ∧
    (opt ≠ [] →
      (applyAll s (((e0 :: (mid ++ opt)).map eventWrites).flatten)).stage = Stage.merge) := by
  simp only [List.map_cons, List.flatten_cons, List.map_append, List.flatten_append]
  rw [chain'_runStates_append, applyAll_append, chain'_runStates_append, applyAll_append]
  have h0stage : (applyAll s (eventWrites e0)).stage = Stage.found := by
    rw [eventWrites_eq, applyAll_cbWrites_stage, h0]
    rfl
  have h0chain : List.Chain' stageLe (runStates s (eventWrites e0)) := by
    rw [eventWrites_eq]
    refine chain'_cbWrites s _ _ _ ?_
    rw [h0]
    exact hs
  obtain ⟨hmc, hmr⟩ := chain'_eventList mid hmid (applyAll s (eventWrites e0))
    (by rw [h0stage]; decide)
  rcases hopt with rfl | ⟨t, n, rfl⟩
  · have hnil : (([] : List CbEvent).map eventWrites).flatten = [] := rfl
    rw [hnil, applyAll_nil]
    refine ⟨⟨h0chain, hmc, List.chain'_singleton _⟩, by omega, ?_⟩
    intro hne
    exact absurd rfl hne
  · have hopt1 : (([(⟨-1, t, n⟩ : CbEvent)] : List CbEvent).map eventWrites).flatten
        = cbWrites (-1) t n ++ [] := rfl
    rw [hopt1, chain'_runStates_append, applyAll_append, applyAll_nil]
    have hms : (applyAll (applyAll (applyAll s (eventWrites e0))
        ((mid.map eventWrites).flatten)) (cbWrites (-1) t n)).stage = Stage.merge := by
      rw [applyAll_cbWrites_stage]
      rfl
    refine ⟨⟨h0chain, hmc, ?_, List.chain'_singleton _⟩, ?_, fun _ => hms⟩
    · refine chain'_cbWrites _ (-1) t n ?_
      have hr4 : stageRank (cbStage (-1)) = 4 := rfl
      rw [hr4]
      omega
    · rw [hms]
      decide

theorem chain'_processWrites (env : PipeEnv) (ok : PyFile → Bool) (files : List PyFile)
    (s : JobState) (hs : stageRank s.stage ≤ 2) :
    List.Chain' stageLe (runStates s (processWrites env ok files)) ∧
    stageRank (applyAll s (processWrites env ok files)).stage ≤ 4 ∧
    ((convertLoop env ok files).1 ≠ [] →
      (applyAll s (processWrites env ok files)).stage = Stage.merge) := by
  by_cases hemp : files.isEmpty = true
  · have he : files = [] := List.isEmpty_iff.mp hemp
    subst he
    refine ⟨List.chain'_singleton s, ?_, ?_⟩
    · have h1 : applyAll s (processWrites env ok []) = s := rfl
      rw [h1]
      omega
    · intro hne
      exact absurd rfl hne
  · unfold processWrites processEvents
    rw [if_neg hemp]
    by_cases hcl : (convertLoop env ok files).1.isEmpty = true
    · rw [if_pos hcl]
      have h := chain'_eventsWrites ⟨0, files.length, ""⟩
        (files.enum.map (fun p : Nat × PyFile =>
          (⟨(p.1 : Int) + 1, files.length, p.2.name⟩ : CbEvent)))
        [] rfl (processEvents_mid_ge files) (Or.inl rfl) s hs
      exact ⟨h.1, h.2.1, fun hne => absurd (List.isEmpty_iff.mp hcl) hne⟩
    · rw [if_neg hcl]
      have h := chain'_eventsWrites ⟨0, files.length, ""⟩
        (files.enum.map (fun p : Nat × PyFile =>
          (⟨(p.1 : Int) + 1, files.length, p.2.name⟩ : CbEvent)))
        [⟨-1, files.length, "merge"⟩] rfl (processEvents_mid_ge files)
        (Or.inr ⟨files.length, "merge", rfl⟩) s hs
      exact ⟨h.1, h.2.1, fun _ => h.2.2 (by simp)⟩

theorem processWrites_stage_cases (env : PipeEnv) (ok : PyFile → Bool) (files : List PyFile) :
    ∀ w ∈ processWrites env ok files, ∀ s : JobState,
      (w s).stage = s.stage ∨ (w s).stage = Stage.found ∨
      (w s).stage = Stage.convert ∨ (w s).stage = Stage.merge := by
  intro w hw s
  unfold processWrites at hw
  rcases List.mem_flatten.mp hw with ⟨l, hl, hwl⟩
  rcases List.mem_map.mp hl with ⟨e, _, rfl⟩
  have hcases := cbWrites_stage_cases e.current e.total e.name w hwl s
  rcases hcases with h | h
  · exact Or.inl h
  · unfold cbStage at h
    by_cases h1 : e.current = 0
    · rw [if_pos h1] at h
      exact Or.inr (Or.inl h)
    · rw [if_neg h1] at h
      by_cases h2 : e.current = -1
      · rw [if_pos h2] at h
        exact Or.inr (Or.inr (Or.inr h))
      · rw [if_neg h2] at h
        exact Or.inr (Or.inr (Or.inl h))

theorem processWrites_pdf (env : PipeEnv) (ok : PyFile → Bool) (files : List PyFile) :
    ∀ w ∈ processWrites env ok files, ∀ s : JobState, (w s).pdf_path = s.pdf_path := by
  intro w hw s
  unfold processWrites at hw
  rcases List.mem_flatten.mp hw with ⟨l, hl, hwl⟩
  rcases List.mem_map.mp hl with ⟨e, _, rfl⟩
  exact cbWrites_pdf_preserve e.current e.total e.name w hwl s

theorem startWrites_stage_cases (n : Nat) :
    ∀ w ∈ startWrites n, ∀ s : JobState,
      (w s).stage = s.stage ∨ (w s).stage = Stage.processing := by
  intro w hw s
  unfold startWrites at hw
  simp only [List.mem_cons, List.not_mem_nil, or_false] at hw
  rcases hw with rfl | rfl | rfl | rfl
  · exact Or.inr rfl
  · exact Or.inl rfl
  · exact Or.inl rfl
  · exact Or.inl rfl

theorem startWrites_pdf (n : Nat) :
    ∀ w ∈ startWrites n, ∀ s : JobState, (w s).pdf_path = s.pdf_path := by
  intro w hw s
  unfold startWrites at hw
  simp only [List.mem_cons, List.not_mem_nil, or_false] at hw
  rcases hw with rfl | rfl | rfl | rfl <;> rfl

theorem emptyListWrites_stage_cases :
    ∀ w ∈ emptyListWrites, ∀ s : JobState,
      (w s).stage = s.stage ∨ (w s).stage = Stage.error := by
  intro w hw s
  unfold emptyListWrites at hw
  simp only [List.mem_cons, List.not_mem_nil, or_false] at hw
  rcases hw with rfl | rfl | rfl
  · exact Or.inr rfl
  · exact Or.inl rfl
  · exact Or.inl rfl

theorem emptyListWrites_pdf :
    ∀ w ∈ emptyListWrites, ∀ s : JobState, (w s).pdf_path = s.pdf_path := by
  intro w hw s
  unfold emptyListWrites at hw
  simp only [List.mem_cons, List.not_mem_nil, or_false] at hw
  rcases hw with rfl | rfl | rfl <;> rfl

theorem failWrites_stage_cases (failed : List String) :
    ∀ w ∈ failWrites failed, ∀ s : JobState,
      (w s).stage = s.stage ∨ (w s).stage = Stage.error := by
  intro w hw s
  unfold failWrites at hw
  simp only [List.mem_cons, List.not_mem_nil, or_false] at hw
  rcases hw with rfl | rfl
  · exact Or.inr rfl
  · exact Or.inl rfl

theorem failWrites_pdf (failed : List String) :
    ∀ w ∈ failWrites failed, ∀ s : JobState, (w s).pdf_path = s.pdf_path := by
  intro w hw s
  unfold failWrites at hw
  simp only [List.mem_cons, List.not_mem_nil, or_false] at hw
  rcases hw with rfl | rfl <;> rfl

theorem exnWrites_stage_cases :
    ∀ w ∈ exnWrites, ∀ s : JobState,
      (w s).stage = s.stage ∨ (w s).stage = Stage.error := by
  intro w hw s
  unfold exnWrites at hw
  simp only [List.mem_cons, List.not_mem_nil, or_false] at hw
  rcases hw with rfl | rfl | rfl
  · exact Or.inr rfl
  · exact Or.inl rfl
  · exact Or.inl rfl

theorem exnWrites_pdf :
    ∀ w ∈ exnWrites, ∀ s : JobState, (w s).pdf_path = s.pdf_path := by
  intro w hw s
  unfold exnWrites at hw
  simp only [List.mem_cons, List.not_mem_nil, or_false] at hw
  rcases hw with rfl | rfl | rfl <;> rfl

theorem successWrites_stage_cases (dest : String) (pages : Nat) :
    ∀ w ∈ successWrites dest pages, ∀ s : JobState,
      (w s).stage = s.stage ∨ (w s).stage = Stage.done := by
  intro w hw s
  unfold successWrites at hw
  simp only [List.mem_cons, List.not_mem_nil, or_false] at hw
  rcases hw with rfl | rfl | rfl | rfl | rfl
  · exact Or.inl rfl
  · exact Or.inr rfl
  · exact Or.inl rfl
  · exact Or.inl rfl
  · exact Or.inl rfl

/-- When the pipeline reports overall success at least one PDF was produced. -/
theorem process_ok_pdfs (env : PipeEnv) (fl : List PyFile)
    (h : ¬ ((process_from_file_list env fl).1 = false)) :
    (convertLoop env (fileSucceeds env) fl).1 ≠ [] := by
  intro hnil
  refine h ?_
  unfold process_from_file_list
  by_cases hemp : fl.isEmpty = true
  · rw [if_pos hemp]
  · simp only [if_neg hemp]
    rw [hnil]
    rfl

/-! ### Claims C1 and C2 -/
/-- C1 amended: over one run of `_run_job_from_preview`, the polled stage
sequence is a subsequence of
preview → processing → found → convert → merge → done|error and never moves
backward (the code exposes the extra stage value `processing`, set at
web_app.py line 204, between `preview` and `found`); once `done` is observed,
`error` is never observed in the same run. -/
theorem claim_C1 (env : PipeEnv) (paths : List PyFile) (order : List Int)
    (finalizeFails : Bool) (dest out_filename : String) :
    List.Pairwise stageLe (jobTrace env paths order finalizeFails dest out_filename) ∧
    ((∃ s ∈ jobTrace env paths order finalizeFails dest out_filename,
        s.stage = Stage.done) →
      ∀ s2 ∈ jobTrace env paths order finalizeFails dest out_filename,
        s2.stage ≠ Stage.error) := by
  unfold jobTrace runFromPreviewWrites
  by_cases hfl : (runnerFileList paths order).isEmpty = true
  · rw [if_pos hfl]
    constructor
    · rw [← List.chain'_iff_pairwise]
      unfold emptyListWrites
      simp only [runStates]
      refine List.Chain'.cons ?_ (List.Chain'.cons ?_ (List.chain'_pair.mpr ?_))
      · exact Nat.zero_le _
      · exact Nat.le_refl _
      · exact Nat.le_refl _
    · intro hdone s2 hs2
      exfalso
      rcases hdone with ⟨s1, hs1, hd⟩
      refine runStates_invariant (fun x => x.stage ≠ Stage.done) emptyListWrites
        (initJob out_filename) (by simp [initJob]) ?_ s1 hs1 hd
      intro w hw s' hP
      rcases emptyListWrites_stage_cases w hw s' with h | h
      · rw [h]
        exact hP
      · rw [h]
        intro hcon
        cases hcon
  · rw [if_neg hfl]
    have hstart : (applyAll (initJob out_filename)
        (startWrites (runnerFileList paths order).length)).stage = Stage.processing := rfl
    obtain ⟨hpc, hpr, hpm⟩ := chain'_processWrites env (fileSucceeds env)
      (runnerFileList paths order)
      (applyAll (initJob out_filename) (startWrites (runnerFileList paths order).length))
      (by rw [hstart]; decide)
    constructor
    · rw [← List.chain'_iff_pairwise]
      rw [chain'_runStates_append, chain'_runStates_append, applyAll_append]
      refine ⟨⟨?_, hpc⟩, ?_⟩
      · unfold startWrites
        simp only [runStates]
        refine List.Chain'.cons ?_ (List.Chain'.cons ?_ (List.Chain'.cons ?_
          (List.chain'_pair.mpr ?_)))
        · exact Nat.zero_le _
        · exact Nat.le_refl _
        · exact Nat.le_refl _
        · exact Nat.le_refl _
      · by_cases hok : (process_from_file_list env (runnerFileList paths order)).1 = false
        · rw [if_pos hok]
          unfold failWrites
          simp only [runStates]
          refine List.Chain'.cons ?_ (List.chain'_pair.mpr ?_)
          · exact le_trans hpr (show (4 : Nat) ≤ 5 from by decide)
          · exact Nat.le_refl _
        · rw [if_neg hok]
          by_cases hff : finalizeFails = true
          · rw [if_pos hff]
            unfold exnWrites
            simp only [runStates]
            refine List.Chain'.cons ?_ (List.Chain'.cons ?_ (List.chain'_pair.mpr ?_))
            · exact le_trans hpr (show (4 : Nat) ≤ 5 from by decide)
            · exact Nat.le_refl _
            · exact Nat.le_refl _
          · rw [if_neg hff]
            unfold successWrites
            simp only [runStates]
            refine List.Chain'.cons ?_ (List.Chain'.cons ?_ (List.Chain'.cons ?_
              (List.Chain'.cons ?_ (List.chain'_pair.mpr ?_))))
            · exact Nat.le_refl _
            · exact le_trans hpr (show (4 : Nat) ≤ 5 from by decide)
            · exact Nat.le_refl _
            · exact Nat.le_refl _
            · exact Nat.le_refl _
    · intro hdone s2m hs2m
      by_cases hok : (process_from_file_list env (runnerFileList paths order)).1 = false
      · exfalso
        rcases hdone with ⟨s1, hs1, hd⟩
        rw [if_pos hok] at hs1
        refine runStates_invariant (fun x => x.stage ≠ Stage.done) _
          (initJob out_filename) (by simp [initJob]) ?_ s1 hs1 hd
        intro w hw s' hP
        rcases List.mem_append.mp hw with hw1 | hw2
        · rcases List.mem_append.mp hw1 with hwa | hwb
          · rcases startWrites_stage_cases _ w hwa s' with h | h
            · rw [h]
              exact hP
            · rw [h]
              intro hcon
              cases hcon
          · rcases processWrites_stage_cases env _ _ w hwb s' with h | h | h | h
            · rw [h]
              exact hP
            · rw [h]
              intro hcon
              cases hcon
            · rw [h]
              intro hcon
              cases hcon
            · rw [h]
              intro hcon
              cases hcon
        · rcases failWrites_stage_cases _ w hw2 s' with h | h
          · rw [h]
            exact hP
          · rw [h]
            intro hcon
            cases hcon
      · by_cases hff : finalizeFails = true
        · exfalso
          rcases hdone with ⟨s1, hs1, hd⟩
          rw [if_neg hok, if_pos hff] at hs1
          refine runStates_invariant (fun x => x.stage ≠ Stage.done) _
            (initJob out_filename) (by simp [initJob]) ?_ s1 hs1 hd
          intro w hw s' hP
          rcases List.mem_append.mp hw with hw1 | hw2
          · rcases List.mem_append.mp hw1 with hwa | hwb
            · rcases startWrites_stage_cases _ w hwa s' with h | h
              · rw [h]
                exact hP
              · rw [h]
                intro hcon
                cases hcon
            · rcases processWrites_stage_cases env _ _ w hwb s' with h | h | h | h
              · rw [h]
                exact hP
              · rw [h]
                intro hcon
                cases hcon
              · rw [h]
                intro hcon
                cases hcon
              · rw [h]
                intro hcon
                cases hcon
          · rcases exnWrites_stage_cases w hw2 s' with h | h
            · rw [h]
              exact hP
            · rw [h]
              intro hcon
              cases hcon
        · rw [if_neg hok, if_neg hff] at hs2m
          refine runStates_invariant (fun x => x.stage ≠ Stage.error) _
            (initJob out_filename) (by simp [initJob]) ?_ s2m hs2m
          intro w hw s' hP
          rcases List.mem_append.mp hw with hw1 | hw2
          · rcases List.mem_append.mp hw1 with hwa | hwb
            · rcases startWrites_stage_cases _ w hwa s' with h | h
              · rw [h]
                exact hP
              · rw [h]
                intro hcon
                cases hcon
            · rcases processWrites_stage_cases env _ _ w hwb s' with h | h | h | h
              · rw [h]
                exact hP
              · rw [h]
                intro hcon
                cases hcon
              · rw [h]
                intro hcon
                cases hcon
              · rw [h]
                intro hcon
                cases hcon
          · rcases successWrites_stage_cases _ _ w hw2 s' with h | h
            · rw [h]
              exact hP
            · rw [h]
              intro hcon
              cases hcon

theorem applyAll_emptyListWrites_fields (s : JobState) :
    (applyAll s emptyListWrites).pdf_path = s.pdf_path ∧
    (applyAll s emptyListWrites).stage = Stage.error := ⟨rfl, rfl⟩

theorem applyAll_failWrites_fields (s : JobState) (failed : List String) :
    (applyAll s (failWrites failed)).pdf_path = s.pdf_path ∧
    (applyAll s (failWrites failed)).stage = Stage.error := ⟨rfl, rfl⟩

theorem applyAll_exnWrites_fields (s : JobState) :
    (applyAll s exnWrites).pdf_path = s.pdf_path ∧
    (applyAll s exnWrites).stage = Stage.error := ⟨rfl, rfl⟩

theorem applyAll_successWrites_fields (s : JobState) (dest : String) (pages : Nat) :
    (applyAll s (successWrites dest pages)).pdf_path = some dest ∧
    (applyAll s (successWrites dest pages)).stage = Stage.done := ⟨rfl, rfl⟩

/-- C2 amended: over one run, a registry snapshot with stage done always has
the artifact path set; a snapshot with the artifact path set has stage done or
is the single transient snapshot of stage merge between the pdf_path write
(web_app.py line 236) and the stage write (line 237); once the run's writes
are finished the artifact path is set iff the stage is done. -/
theorem claim_C2 (env : PipeEnv) (paths : List PyFile) (order : List Int)
    (finalizeFails : Bool) (dest out_filename : String) :
    (∀ s ∈ jobTrace env paths order finalizeFails dest out_filename,
      (s.stage = Stage.done → s.pdf_path ≠ none) ∧
      (s.pdf_path ≠ none → s.stage = Stage.done ∨ s.stage = Stage.merge)) ∧
    (∀ s, (jobTrace env paths order finalizeFails dest out_filename).getLast? = some s →
      (s.pdf_path ≠ none ↔ s.stage = Stage.done)) := by
  unfold jobTrace runFromPreviewWrites
  by_cases hfl : (runnerFileList paths order).isEmpty = true
  · rw [if_pos hfl]
    have hcond : ∀ w ∈ emptyListWrites, ∀ s' : JobState,
        (s'.pdf_path = none ∧ s'.stage ≠ Stage.done) →
        ((w s').pdf_path = none ∧ (w s').stage ≠ Stage.done) := by
      intro w hw s' hP'
      constructor
      · rw [emptyListWrites_pdf w hw s']
        exact hP'.1
      · rcases emptyListWrites_stage_cases w hw s' with h | h
        · rw [h]
          exact hP'.2
        · rw [h]
          intro hcon
          cases hcon
    constructor
    · intro s hs
      have hP := runStates_invariant (fun x => x.pdf_path = none ∧ x.stage ≠ Stage.done)
        emptyListWrites (initJob out_filename) ⟨rfl, by simp [initJob]⟩ hcond s hs
      exact ⟨fun hd => absurd hd hP.2, fun hp => absurd hP.1 hp⟩
    · intro s hlast
      rw [runStates_getLast?] at hlast
      cases hlast
      obtain ⟨hlp, hls⟩ := applyAll_emptyListWrites_fields (initJob out_filename)
      rw [hlp, hls]
      refine ⟨fun hp => absurd rfl hp, fun hd => ?_⟩
      cases hd
  · rw [if_neg hfl]
    have hstart : (applyAll (initJob out_filename)
        (startWrites (runnerFileList paths order).length)).stage = Stage.processing := rfl
    obtain ⟨hpc, hpr, hpm⟩ := chain'_processWrites env (fileSucceeds env)
      (runnerFileList paths order)
      (applyAll (initJob out_filename) (startWrites (runnerFileList paths order).length))
      (by rw [hstart]; decide)
    have hcondAB : ∀ w ∈ startWrites (runnerFileList paths order).length ++
        processWrites env (fileSucceeds env) (runnerFileList paths order), ∀ s' : JobState,
        (s'.pdf_path = none ∧ s'.stage ≠ Stage.done) →
        ((w s').pdf_path = none ∧ (w s').stage ≠ Stage.done) := by
      intro w hw s' hP'
      rcases List.mem_append.mp hw with hwa | hwb
      · constructor
        · rw [startWrites_pdf _ w hwa s']
          exact hP'.1
        · rcases startWrites_stage_cases _ w hwa s' with h | h
          · rw [h]
            exact hP'.2
          · rw [h]
            intro hcon
            cases hcon
      · constructor
        · rw [processWrites_pdf env _ _ w hwb s']
          exact hP'.1
        · rcases processWrites_stage_cases env _ _ w hwb s' with h | h | h | h
          · rw [h]
            exact hP'.2
          · rw [h]
            intro hcon
            cases hcon
          · rw [h]
            intro hcon
            cases hcon
          · rw [h]
            intro hcon
            cases hcon
    have hpre := runStates_invariant (fun x => x.pdf_path = none ∧ x.stage ≠ Stage.done)
      (startWrites (runnerFileList paths order).length ++
        processWrites env (fileSucceeds env) (runnerFileList paths order))
      (initJob out_filename) ⟨rfl, by simp [initJob]⟩ hcondAB
    have hs2P := hpre _ (applyAll_mem_runStates
      (startWrites (runnerFileList paths order).length ++
        processWrites env (fileSucceeds env) (runnerFileList paths order))
      (initJob out_filename))
    constructor
    · intro s hs
      rcases (mem_runStates_append _ _ _ s).mp hs with hsp | hse
      · obtain ⟨hpdf, hnd⟩ := hpre s hsp
        exact ⟨fun hd => absurd hd hnd, fun hp => absurd hpdf hp⟩
      · by_cases hok : (process_from_file_list env (runnerFileList paths order)).1 = false
        · rw [if_pos hok] at hse
          have hcondC : ∀ w ∈ failWrites
              (process_from_file_list env (runnerFileList paths order)).2.2, ∀ s' : JobState,
              (s'.pdf_path = none ∧ s'.stage ≠ Stage.done) →
              ((w s').pdf_path = none ∧ (w s').stage ≠ Stage.done) := by
            intro w hw s' hP'
            constructor
            · rw [failWrites_pdf _ w hw s']
              exact hP'.1
            · rcases failWrites_stage_cases _ w hw s' with h | h
              · rw [h]
                exact hP'.2
              · rw [h]
                intro hcon
                cases hcon
          obtain ⟨hpdf, hnd⟩ := runStates_invariant
            (fun x => x.pdf_path = none ∧ x.stage ≠ Stage.done) _ _ hs2P hcondC s hse
          exact ⟨fun hd => absurd hd hnd, fun hp => absurd hpdf hp⟩
        · by_cases hff : finalizeFails = true
          · rw [if_neg hok, if_pos hff] at hse
            have hcondC : ∀ w ∈ exnWrites, ∀ s' : JobState,
                (s'.pdf_path = none ∧ s'.stage ≠ Stage.done) →
                ((w s').pdf_path = none ∧ (w s').stage ≠ Stage.done) := by
              intro w hw s' hP'
              constructor
              · rw [exnWrites_pdf w hw s']
                exact hP'.1
              · rcases exnWrites_stage_cases w hw s' with h | h
                · rw [h]
                  exact hP'.2
                · rw [h]
                  intro hcon
                  cases hcon
            obtain ⟨hpdf, hnd⟩ := runStates_invariant
              (fun x => x.pdf_path = none ∧ x.stage ≠ Stage.done) _ _ hs2P hcondC s hse
            exact ⟨fun hd => absurd hd hnd, fun hp => absurd hpdf hp⟩
          · rw [if_neg hok, if_neg hff] at hse
            have hsm : (applyAll (initJob out_filename)
                (startWrites (runnerFileList paths order).length ++
                  processWrites env (fileSucceeds env) (runnerFileList paths order))).stage =
                Stage.merge := by
              rw [applyAll_append]
              exact hpm (process_ok_pdfs env _ hok)
            unfold successWrites at hse
            simp only [runStates] at hse
            simp only [List.mem_cons, List.not_mem_nil, or_false] at hse
            rcases hse with rfl | rfl | rfl | rfl | rfl | rfl
            · exact ⟨fun hd => absurd hd hs2P.2, fun hp => absurd hs2P.1 hp⟩
            · refine ⟨fun hd => ?_, fun _ => Or.inr ?_⟩
              · have hd2 : Stage.merge = Stage.done := by
                  rw [← hsm]
                  exact hd
                cases hd2
              · exact hsm
            · exact ⟨fun _ => fun hc => Option.noConfusion hc, fun _ => Or.inl rfl⟩
            · exact ⟨fun _ => fun hc => Option.noConfusion hc, fun _ => Or.inl rfl⟩
            · exact ⟨fun _ => fun hc => Option.noConfusion hc, fun _ => Or.inl rfl⟩
            · exact ⟨fun _ => fun hc => Option.noConfusion hc, fun _ => Or.inl rfl⟩
    · intro s hlast
      rw [runStates_getLast?] at hlast
      cases hlast
      rw [applyAll_append]
      by_cases hok : (process_from_file_list env (runnerFileList paths order)).1 = false
      · rw [if_pos hok]
        obtain ⟨hlp, hls⟩ := applyAll_failWrites_fields
          (applyAll (initJob out_filename)
            (startWrites (runnerFileList paths order).length ++
              processWrites env (fileSucceeds env) (runnerFileList paths order)))
          (process_from_file_list env (runnerFileList paths order)).2.2
        rw [hlp, hls]
        refine ⟨fun hp => absurd hs2P.1 hp, fun hd => ?_⟩
        cases hd
      · by_cases hff : finalizeFails = true
        · rw [if_neg hok, if_pos hff]
          obtain ⟨hlp, hls⟩ := applyAll_exnWrites_fields
            (applyAll (initJob out_filename)
              (startWrites (runnerFileList paths order).length ++
                processWrites env (fileSucceeds env) (runnerFileList paths order)))
          rw [hlp, hls]
          refine ⟨fun hp => absurd hs2P.1 hp, fun hd => ?_⟩
          cases hd
        · rw [if_neg hok, if_neg hff]
          obtain ⟨hlp, hls⟩ := applyAll_successWrites_fields
            (applyAll (initJob out_filename)
              (startWrites (runnerFileList paths order).length ++
                processWrites env (fileSucceeds env) (runnerFileList paths order)))
            dest (process_from_file_list env (runnerFileList paths order)).2.1
          rw [hlp, hls]
          exact ⟨fun _ => rfl, fun _ => fun hc => Option.noConfusion hc⟩

/-- C1 fails as stated: polling the reference run observes the stage value
`processing` (web_app.py line 204), which is outside
preview → found → convert → merge → done|error. -/
theorem claim_C1_counterexample :
    ∃ s ∈ jobTrace envT pathsT [0] false "merged.pdf" "m.pdf",
      s.stage ∉ [Stage.preview, Stage.found, Stage.convert, Stage.merge,
        Stage.done, Stage.error] := by
  decide

theorem claim_C1_witness : (initJob "m.pdf").stage ≠ Stage.error :=
  (claim_C1 envT pathsT [0] false "merged.pdf" "m.pdf").2 (by decide)
    (initJob "m.pdf") (by decide)

/-- C2 fails as stated: the reference run reaches a registry snapshot whose
pdf_path is set while its stage is still merge, observable by a poll between
the two assignments of web_app.py lines 236-237. -/
theorem claim_C2_counterexample :
    ∃ s ∈ jobTrace envT pathsT [0] false "merged.pdf" "m.pdf",
      s.pdf_path ≠ none ∧ s.stage ≠ Stage.done := by
  decide

theorem claim_C2_witness : wState.stage = Stage.done ∨ wState.stage = Stage.merge :=
  ((claim_C2 envT pathsT [0] false "merged.pdf" "m.pdf").1 wState (by decide)).2 (by decide)

end PdfBot
